import Mathlib

/-!
# Verification of the `dynamodbattribute` codec

A shallow embedding of the attribute-value encoder (`src/unnamed/part_000`,
the marshal half of the `dynamodbattribute` package) and decoder
(`src/service/dynamodb/dynamodbattribute/decode.go`) of this repository,
together with proofs and refutations of the frozen specification claims.

Modelling conventions:
* Go's `reflect`-driven traversal is embedded as a recursion over a closed
  universe of Go types (`GoTy`) and values (`GoVal`).  A `reflect.Value`
  of an addressable location is modelled as the pair of the location's
  static type and the value currently stored there; functions that mutate
  the location instead return the updated value.
* `dynamodb.AttributeValue` is embedded as `AV`, with `Option` for
  nil-able pointer fields and `List` for slice fields, mirroring which
  tests the Go code performs (`av.X != nil` versus `len(av.X) != 0`).
* Machine integers are carried as `Int`/`Nat` together with the width of
  the Go kind; the 64-bit platform is modelled (`int`/`uint` are 64 bits
  wide).  `float64` values only ever arise from decoding a wire number
  into an `interface{}` target; they are identified by the numeric text
  they were parsed from, as no claim depends on IEEE-754 rounding.
* The `tag` option record and the struct field resolver
  (`unionStructFields`, `fieldByName`) are referenced by both codec files
  but their source is not part of this repository snapshot; they are
  modelled from the spec (§4.3–§4.4): a struct type carries its already
  resolved field descriptors (non-empty wire name plus options), and
  `fieldByName` is exact-name lookup.
* No type of the modelled universe implements the `Marshaler` or
  `Unmarshaler` extension hooks, so `tryMarshaler` returns false and
  `indirect` never yields an `Unmarshaler`; the hook checks are therefore
  omitted from the embedding.
* `reflect.Value.SetLen` panics when invoked on a non-slice value; the
  decoder's set/list loops invoke it unconditionally, so decoding into a
  fixed-size array target is modelled by the explicit `panicked` outcome.
-/

namespace DynAttr

/-- The Go integer kinds that `encodeNumber`/`decodeNumber` distinguish
(`int`, `int8`..`int64`; likewise for the unsigned kinds).  `i` is the
platform-sized kind, modelled as 64 bits wide. -/
inductive IW : Type where
  | i | i8 | i16 | i32 | i64
  deriving DecidableEq, Repr

/-- Bit width of an integer kind (64-bit platform). -/
def IW.bits : IW → Nat
  | .i => 64
  | .i8 => 8
  | .i16 => 16
  | .i32 => 32
  | .i64 => 64

/-- Modelled from the spec: the per-field option record produced by the
tag parser (§4.4), whose Go source (`tag`) is not in this repository
snapshot.  Field names follow the Go option names used by the two codec
files: `OmitEmpty`, `OmitEmptyElem`, `AsString`, `AsBinSet`, `AsNumSet`,
`AsStrSet`. -/
structure Tag where
  omitEmpty : Bool := false
  omitEmptyElem : Bool := false
  asString : Bool := false
  asBinSet : Bool := false
  asNumSet : Bool := false
  asStrSet : Bool := false
  deriving DecidableEq, Repr

/-- The empty `tag{}` literal. -/
def Tag.none : Tag := {}

/-- Go types of the modelled universe.  `bytes` is `[]byte` and
`bytesSlices` is `[][]byte`: the encoder special-cases both types
(`case []byte` and `v.Type() == byteSliceSlicetype`), so they are kept as
dedicated constructors; `slice`/`array`/`map`/`struct`/`ptr` cover the
remaining composite kinds, `iface` is `interface{}`, and
`chanK`/`funcK`/`unsafeK` are the kinds the encoder's switch lists as
unsupported.  `complexK` stands for a scalar kind that reaches
`encodeNumber`'s default branch (e.g. `complex128`). -/
inductive GoTy : Type where
  | int (w : IW)
  | uint (w : IW)
  | bool
  | str
  | bytes
  | bytesSlices
  | slice (elem : GoTy)
  | array (n : Nat) (elem : GoTy)
  | map (elem : GoTy)
  | struct (fields : List (String × Tag × GoTy))
  | ptr (elem : GoTy)
  | iface
  | chanK | funcK | unsafeK | complexK

/-- Go values of the modelled universe.  A `struct` value carries the
resolved field descriptors of its type alongside the field values, the
way a `reflect.Value` carries its `reflect.Type`.  `float64` values are
identified by their source numeric text (see the module comment). -/
inductive GoVal : Type where
  | int (w : IW) (z : Int)
  | uint (w : IW) (n : Nat)
  | bool (b : Bool)
  | str (s : String)
  | bytes (b : List Nat)
  | bytesSlices (l : List (List Nat))
  | slice (l : List GoVal)
  | array (l : List GoVal)
  | map (entries : List (String × GoVal))
  | struct (fields : List (String × Tag × GoVal))
  | ptr (v : Option GoVal)
  | nilIface
  | float64 (tok : String)
  | chanV | funcV | unsafeV | complexV

/-- The `dynamodb.AttributeValue` wire record.  Pointer-valued fields
(`B` as a nil-able slice, `BOOL`, `N`, `S`, `NULL`) are `Option`; the
slice fields (`BS`, `L`, `M`, `NS`, `SS`) are lists, where the decoder
only ever distinguishes `len(x) != 0`.  Elements of `L` and values of `M`
are `*AttributeValue` and hence `Option AV`. -/
inductive AV : Type where
  | mk (B : Option (List Nat)) (BOOL : Option Bool) (BS : List (List Nat))
      (L : List (Option AV)) (M : List (String × Option AV))
      (N : Option String) (NS : List String) (S : Option String)
      (SS : List String) (NULL : Option Bool) : AV

def AV.B : AV → Option (List Nat) | .mk b _ _ _ _ _ _ _ _ _ => b
def AV.BOOL : AV → Option Bool | .mk _ x _ _ _ _ _ _ _ _ => x
def AV.BS : AV → List (List Nat) | .mk _ _ x _ _ _ _ _ _ _ => x
def AV.L : AV → List (Option AV) | .mk _ _ _ x _ _ _ _ _ _ => x
def AV.M : AV → List (String × Option AV) | .mk _ _ _ _ x _ _ _ _ _ => x
def AV.N : AV → Option String | .mk _ _ _ _ _ x _ _ _ _ => x
def AV.NS : AV → List String | .mk _ _ _ _ _ _ x _ _ _ => x
def AV.S : AV → Option String | .mk _ _ _ _ _ _ _ x _ _ => x
def AV.SS : AV → List String | .mk _ _ _ _ _ _ _ _ x _ => x
def AV.NULL : AV → Option Bool | .mk _ _ _ _ _ _ _ _ _ x => x

/-- The freshly allocated `&dynamodb.AttributeValue{}` with no field set. -/
def emptyAV : AV := .mk none none [] [] [] none [] none [] none

/-- `encodeNull`: `*av = dynamodb.AttributeValue{NULL: &t}` with `t = true`. -/
def nullAV : AV := .mk none none [] [] [] none [] none [] (some true)

/-- An attribute value with only `B` set. -/
def AV.ofB (b : List Nat) : AV := .mk (some b) none [] [] [] none [] none [] none

/-- An attribute value with only `BOOL` set. -/
def AV.ofBOOL (b : Bool) : AV := .mk none (some b) [] [] [] none [] none [] none

/-- An attribute value with only `BS` set. -/
def AV.ofBS (bs : List (List Nat)) : AV := .mk none none bs [] [] none [] none [] none

/-- An attribute value with only `L` set. -/
def AV.ofL (l : List (Option AV)) : AV := .mk none none [] l [] none [] none [] none

/-- An attribute value with only `M` set. -/
def AV.ofM (m : List (String × Option AV)) : AV := .mk none none [] [] m none [] none [] none

/-- An attribute value with only `N` set. -/
def AV.ofN (n : String) : AV := .mk none none [] [] [] (some n) [] none [] none

/-- An attribute value with only `NS` set. -/
def AV.ofNS (ns : List String) : AV := .mk none none [] [] [] none ns none [] none

/-- An attribute value with only `S` set. -/
def AV.ofS (s : String) : AV := .mk none none [] [] [] none [] (some s) [] none

/-- An attribute value with only `SS` set. -/
def AV.ofSS (ss : List String) : AV := .mk none none [] [] [] none [] none ss none

/-! ## Decimal formatting and parsing (strconv)

`strconv.FormatInt`/`FormatUint` with base 10, and the base-10/64-bit
instances of `strconv.ParseInt`/`ParseUint` that the decoder uses.  The
digit lists are little-endian in `digitsRevAux`/`natOfDigitsRev`. -/

/-- Little-endian base-10 digits of `n`; the first argument is fuel,
`digitsRev` supplies `n` itself, which is enough since `n / 10 < n`. -/
def digitsRevAux : Nat → Nat → List Nat
  | 0, _ => []
  | fuel + 1, n => if n = 0 then [] else n % 10 :: digitsRevAux fuel (n / 10)

/-- Little-endian base-10 digits of `n` (empty for `0`). -/
def digitsRev (n : Nat) : List Nat := digitsRevAux n n

/-- Value of a little-endian base-10 digit list. -/
def natOfDigitsRev : List Nat → Nat
  | [] => 0
  | d :: ds => d + 10 * natOfDigitsRev ds

/-- ASCII digit character for a digit value. -/
def digitChar (d : Nat) : Char := Char.ofNat (48 + d)

/-- `strconv.FormatUint(n, 10)`. -/
def formatNat (n : Nat) : String :=
  if n = 0 then "0" else String.mk ((digitsRev n).reverse.map digitChar)

/-- `strconv.FormatInt(z, 10)`. -/
def formatInt (z : Int) : String :=
  if z < 0 then String.mk ('-' :: (formatNat z.natAbs).data) else formatNat z.natAbs

/-- Numeric value of an ASCII digit character, `none` for other characters. -/
def charDigit (c : Char) : Option Nat :=
  if 48 ≤ c.toNat ∧ c.toNat ≤ 57 then some (c.toNat - 48) else none

/-- All-digits parse of a character list (big-endian), `none` on any
non-digit. -/
def digitsOfChars : List Char → Option (List Nat)
  | [] => some []
  | c :: cs =>
    match charDigit c, digitsOfChars cs with
    | some d, some ds => some (d :: ds)
    | _, _ => none

/-- Unbounded decimal parse of a non-empty all-digit character list. -/
def parseNatCore (cs : List Char) : Option Nat :=
  match digitsOfChars cs with
  | some ds => if ds.isEmpty then none else some (natOfDigitsRev ds.reverse)
  | none => none

/-- `strconv.ParseUint(s, 10, 64)`: digits only (no sign), value below
`2^64`; a range violation is an error like a syntax violation is. -/
def parseUint64 (s : String) : Option Nat :=
  match parseNatCore s.data with
  | some v => if v < 2 ^ 64 then some v else none
  | none => none

/-- `strconv.ParseInt(s, 10, 64)`: optional sign, digits, value in
`[-2^63, 2^63)`. -/
def parseInt64 (s : String) : Option Int :=
  match s.data with
  | [] => none
  | c :: cs =>
    if c = '-' then
      match parseNatCore cs with
      | none => none
      | some v => if v ≤ 2 ^ 63 then some (-(v : Int)) else none
    else
      match parseNatCore (if c = '+' then cs else c :: cs) with
      | none => none
      | some v => if v < 2 ^ 63 then some (v : Int) else none

/-- ASCII digit test. -/
def isDigitCh (c : Char) : Bool := 48 ≤ c.toNat && c.toNat ≤ 57

/-- Strip one leading sign character. -/
def stripSign : List Char → List Char
  | '-' :: cs => cs
  | '+' :: cs => cs
  | cs => cs

/-- Exponent suffix of a float literal: empty, or `e`/`E`, optional sign
and a non-empty digit run. -/
def expOk : List Char → Bool
  | [] => true
  | c :: rest =>
    (c = 'e' || c = 'E') &&
      (let ds := stripSign rest
       !ds.isEmpty && ds.all isDigitCh)

/-- `strconv.ParseFloat(s, 64)` syntax test, restricted to the decimal
forms (optional sign, digits with at most one point, optional exponent);
the special `Inf`/`NaN` spellings are not modelled, no claim uses them. -/
def floatSyntaxOk (s : String) : Bool :=
  let cs := stripSign s.data
  let ip := cs.takeWhile isDigitCh
  let r1 := cs.dropWhile isDigitCh
  match r1 with
  | '.' :: fs =>
    let fp := fs.takeWhile isDigitCh
    let r2 := fs.dropWhile isDigitCh
    (!ip.isEmpty || !fp.isEmpty) && expOk r2
  | _ => !ip.isEmpty && expOk r1

/-- `strconv.ParseFloat(s, 64)`, with the parsed `float64` identified by
its source text (IEEE-754 rounding is not modelled; no claim depends on
the numeric value of a parsed float). -/
def parseFloat64 (s : String) : Option String :=
  if floatSyntaxOk s then some s else none

/-! ### Decimal round-trip lemmas -/

theorem natOfDigitsRev_digitsRevAux (fuel n : Nat) (h : n ≤ fuel) :
    natOfDigitsRev (digitsRevAux fuel n) = n := by
  induction fuel generalizing n with
  | zero =>
    interval_cases n
    rfl
  | succ fuel ih =>
    by_cases hn : n = 0
    · simp [digitsRevAux, hn, natOfDigitsRev]
    · have hdiv : n / 10 ≤ fuel := by
        have : n / 10 < n := Nat.div_lt_self (Nat.pos_of_ne_zero hn) (by norm_num)
        omega
      simp only [digitsRevAux, hn, if_false, natOfDigitsRev, ih _ hdiv]
      omega

theorem digitsRevAux_lt_ten (fuel n : Nat) : ∀ d ∈ digitsRevAux fuel n, d < 10 := by
  induction fuel generalizing n with
  | zero => simp [digitsRevAux]
  | succ fuel ih =>
    by_cases hn : n = 0
    · simp [digitsRevAux, hn]
    · simp only [digitsRevAux, hn, if_false, List.mem_cons]
      rintro d (rfl | hd)
      · exact Nat.mod_lt _ (by norm_num)
      · exact ih _ d hd

theorem digitsRevAux_ne_nil (fuel n : Nat) (hn : n ≠ 0) (h : n ≤ fuel) :
    digitsRevAux fuel n ≠ [] := by
  cases fuel with
  | zero => omega
  | succ fuel => simp [digitsRevAux, hn]

theorem charDigit_digitChar (d : Nat) (h : d < 10) :
    charDigit (digitChar d) = some d := by
  interval_cases d <;> decide

theorem digitsOfChars_map_digitChar (ds : List Nat) (h : ∀ d ∈ ds, d < 10) :
    digitsOfChars (ds.map digitChar) = some ds := by
  induction ds with
  | nil => rfl
  | cons d ds ih =>
    have hd : d < 10 := h d (List.mem_cons_self d ds)
    have hds : ∀ x ∈ ds, x < 10 := fun x hx => h x (List.mem_cons_of_mem d hx)
    simp [digitsOfChars, charDigit_digitChar d hd, ih hds]

theorem parseNatCore_formatNat (n : Nat) :
    parseNatCore (formatNat n).data = some n := by
  by_cases hn : n = 0
  · subst hn; rfl
  · have hdig : ∀ d ∈ (digitsRev n).reverse, d < 10 := by
      intro d hd
      exact digitsRevAux_lt_ten n n d (List.mem_reverse.mp hd)
    have hnil : digitsRev n ≠ [] := digitsRevAux_ne_nil n n hn le_rfl
    simp only [formatNat, hn, if_false]
    show parseNatCore ((digitsRev n).reverse.map digitChar) = some n
    have hempty : ((digitsRev n).reverse.isEmpty) = false := by
      simp [List.isEmpty_iff, List.reverse_eq_nil_iff, hnil]
    simp only [parseNatCore, digitsOfChars_map_digitChar _ hdig, hempty,
      Bool.false_eq_true, if_false, List.reverse_reverse]
    rw [show digitsRev n = digitsRevAux n n from rfl,
      natOfDigitsRev_digitsRevAux n n le_rfl]

theorem parseUint64_formatNat (n : Nat) (h : n < 2 ^ 64) :
    parseUint64 (formatNat n) = some n := by
  have h' : n < 18446744073709551616 := by norm_num at h; exact h
  simp [parseUint64, parseNatCore_formatNat n, h']

theorem formatNat_head_digit (n : Nat) :
    ∃ c cs, (formatNat n).data = c :: cs ∧ c ≠ '-' ∧ c ≠ '+' := by
  by_cases hn : n = 0
  · exact ⟨'0', [], by subst hn; rfl, by decide, by decide⟩
  · have hnil : digitsRev n ≠ [] := digitsRevAux_ne_nil n n hn le_rfl
    have : ∃ d ds, (digitsRev n).reverse = d :: ds := by
      cases hrev : (digitsRev n).reverse with
      | nil => exact absurd (by simpa using hrev) hnil
      | cons d ds => exact ⟨d, ds, rfl⟩
    obtain ⟨d, ds, hrev⟩ := this
    have hd : d < 10 := by
      refine digitsRevAux_lt_ten n n d ?_
      have : d ∈ (digitsRev n).reverse := by simp [hrev]
      exact List.mem_reverse.mp this
    refine ⟨digitChar d, ds.map digitChar, ?_, ?_, ?_⟩
    · simp [formatNat, hn, hrev]
    · interval_cases d <;> decide
    · interval_cases d <;> decide

theorem parseInt64_formatInt (z : Int) (hlo : -(2 ^ 63) ≤ z) (hhi : z < 2 ^ 63) :
    parseInt64 (formatInt z) = some z := by
  by_cases hneg : z < 0
  · have habs : z.natAbs ≤ 2 ^ 63 := by omega
    simp only [formatInt, hneg, if_true]
    show parseInt64 (String.mk ('-' :: (formatNat z.natAbs).data)) = some z
    have hdata : (String.mk ('-' :: (formatNat z.natAbs).data)).data
        = '-' :: (formatNat z.natAbs).data := rfl
    simp only [parseInt64, hdata, if_pos rfl, parseNatCore_formatNat z.natAbs,
      if_pos habs]
    have hz : ((z.natAbs : Int)) = -z := by omega
    rw [hz, neg_neg]
    simp
  · have habs : (z.natAbs : Int) = z := by omega
    have hlt : z.natAbs < 2 ^ 63 := by omega
    simp only [formatInt, hneg, if_false]
    obtain ⟨c, cs, hdata, hcm, hcp⟩ := formatNat_head_digit z.natAbs
    have hcore : parseNatCore (c :: cs) = some z.natAbs := by
      rw [← hdata]; exact parseNatCore_formatNat z.natAbs
    simp only [parseInt64, hdata, if_neg hcm, if_neg hcp, hcore, if_pos hlt, habs]

/-! ## Encoder (`src/unnamed/part_000`)

`Encoder.Encode` constructs a fresh `AttributeValue` and fills it by the
recursion below; since every recursive call site also starts from a fresh
`&dynamodb.AttributeValue{}`, the in-place filling is modelled by
returning the constructed `AV`. -/

/-- Encoding errors: `InvalidMarshalError` (with its message) and the
internal `unsupportedMarshalTypeError` skip signal. -/
inductive MErr : Type where
  | invalidMarshal (msg : String)
  | unsupportedMarshalType
  deriving DecidableEq, Repr

/-- `emptyValue`: the kind switch deciding the omit-if-zero test.  The
`float64` case (`v.Float() == 0`) holds exactly when every mantissa digit
of the source text is zero. -/
def floatTokIsZero (s : String) : Bool :=
  let cs := stripSign s.data
  (cs.takeWhile fun c => isDigitCh c || c = '.').all fun c => c = '0' || c = '.'

/-- `emptyValue(v)` from the encoder: length test for array/map/slice/
string kinds, zero test for scalars, nil test for interface/pointer
kinds; every other kind (struct included) is never empty. -/
def emptyValue : GoVal → Bool
  | .array l => l.isEmpty
  | .map l => l.isEmpty
  | .slice l => l.isEmpty
  | .bytes b => b.isEmpty
  | .bytesSlices l => l.isEmpty
  | .str s => s.isEmpty
  | .bool b => !b
  | .int _ z => z == 0
  | .uint _ n => n == 0
  | .float64 tok => floatTokIsZero tok
  | .ptr v => v.isNone
  | .nilIface => true
  | _ => false

/-- `keepOrOmitEmpty(omitEmpty, av, err)`: an
`unsupportedMarshalTypeError` means "skip this field/element"; other
errors propagate; a null result is skipped when omit-if-empty is set. -/
def keepOrOmitEmpty (omitEmpty : Bool) : Except MErr AV → Except MErr (Option AV)
  | .error .unsupportedMarshalType => .ok none
  | .error e => .error e
  | .ok av => if av.NULL.isSome && omitEmpty then .ok none else .ok (some av)

/-- `encodeNumber` without its `tryMarshaler` probe (no modelled type
implements the hook): the concrete-type switch over the builtin numeric
types; any other type is `unsupportedMarshalTypeError`.  A `float64` is
formatted back to its source text (see the module comment on floats). -/
def encodeNumber : GoVal → Except MErr AV
  | .int _ z => .ok (AV.ofN (formatInt z))
  | .uint _ n => .ok (AV.ofN (formatNat n))
  | .float64 tok => .ok (AV.ofN tok)
  | _ => .error .unsupportedMarshalType

/-- `encodeString`: the empty string becomes null when
`NullEmptyString` is enabled. -/
def encodeString (nes : Bool) : GoVal → Except MErr AV
  | .str s => if s.isEmpty && nes then .ok nullAV else .ok (AV.ofS s)
  | _ => .error .unsupportedMarshalType

/-- The `AsString` relabelling at the end of `encodeScalar`:
`av.S = av.N; av.N = nil`. -/
def avMoveNtoS (av : AV) : AV :=
  .mk av.B av.BOOL av.BS av.L av.M none av.NS av.N av.SS av.NULL

/-- `encodeScalar`: booleans and strings directly, anything else through
`encodeNumber`, with the `AsString` relabelling when a number was
produced. -/
def encodeScalar (nes : Bool) (ftag : Tag) : GoVal → Except MErr AV
  | .bool b => .ok (AV.ofBOOL b)
  | .str s => encodeString nes (.str s)
  | v =>
    match encodeNumber v with
    | .error e => .error e
    | .ok av =>
      if ftag.asString && av.NULL.isNone && av.N.isSome then .ok (avMoveNtoS av)
      else .ok av

/-- The four collection interpretations `encodeSlice` chooses between,
with the accumulator each one's `elemFn` appends to. -/
inductive SetAcc : Type where
  | bs (l : List (List Nat))
  | ns (l : List String)
  | ss (l : List String)
  | lst (l : List (Option AV))

/-- `encodeSlice`'s mode choice for a slice/array that is not `[]byte`
and not of type `[][]byte`: the `binaryset`/`numberset`/`stringset`
options, else the generic list; the result is the mode's empty
accumulator (`av.BS = make(...)` etc.). -/
def sliceMode (ftag : Tag) : SetAcc :=
  if ftag.asBinSet then .bs []
  else if ftag.asNumSet then .ns []
  else if ftag.asStrSet then .ss []
  else .lst []

/-- The per-mode `elemFn`: set modes demand the element encoded to
exactly the matching wire sub-type and fail with `InvalidMarshalError`
otherwise; list mode appends unconditionally. -/
def elemFnStep (acc : SetAcc) (elem : AV) : Except MErr SetAcc :=
  match acc with
  | .bs l =>
    match elem.B with
    | some b => .ok (.bs (l ++ [b]))
    | none => .error (.invalidMarshal "binary set must only contain non-nil byte slices")
  | .ns l =>
    match elem.N with
    | some n => .ok (.ns (l ++ [n]))
    | none => .error (.invalidMarshal "number set must only contain non-nil string numbers")
  | .ss l =>
    match elem.S with
    | some s => .ok (.ss (l ++ [s]))
    | none => .error (.invalidMarshal "string set must only contain non-nil strings")
  | .lst l => .ok (.lst (l ++ [some elem]))

/-- Build the resulting attribute value from a finished accumulator. -/
def SetAcc.toAV : SetAcc → AV
  | .bs l => AV.ofBS l
  | .ns l => AV.ofNS l
  | .ss l => AV.ofSS l
  | .lst l => AV.ofL l

/-- `encode(av, .bytes b, tag)` unfolded: the omit-if-empty test followed
by the `case []byte` branch of `encodeSlice` (empty becomes null).  Used
for the elements of a `[][]byte` value. -/
def encodeBytesElem (omitE : Bool) (b : List Nat) : AV :=
  if omitE && b.isEmpty then nullAV
  else if b.isEmpty then nullAV else AV.ofB b

/-- `encodeList` specialised to the elements of a `[][]byte` value
(whose element encoding is the non-recursive `encodeBytesElem`):
per element, encode with `tag{OmitEmpty: fieldTag.OmitEmptyElem}`, apply
`keepOrOmitEmpty`, then the mode's `elemFn`; returns the kept-element
count and the accumulator. -/
def encodeBSElems (ftag : Tag) : List (List Nat) → SetAcc → Nat →
    Except MErr (Nat × SetAcc)
  | [], acc, count => .ok (count, acc)
  | b :: rest, acc, count =>
    match keepOrOmitEmpty ftag.omitEmptyElem (.ok (encodeBytesElem ftag.omitEmptyElem b)) with
    | .error e => .error e
    | .ok none => encodeBSElems ftag rest acc count
    | .ok (some elem) =>
      match elemFnStep acc elem with
      | .error e => .error e
      | .ok acc' => encodeBSElems ftag rest acc' (count + 1)

mutual

/-- `Encoder.encode`: pointer/interface indirection (`valueElem`), the
omit-if-empty test, then the kind switch.  `nes` is the encoder's
`NullEmptyString` flag.  The `tryMarshaler` probes are omitted: no
modelled type implements `Marshaler`. -/
def encode (nes : Bool) (ftag : Tag) : GoVal → Except MErr AV
  | .ptr none => .ok nullAV
  | .nilIface => .ok nullAV
  | .ptr (some w) => encode nes ftag w
  | v =>
    if ftag.omitEmpty && emptyValue v then .ok nullAV
    else
      match v with
      | .struct fl =>
        match encodeStructFields nes fl with
        | .error e => .error e
        | .ok entries => .ok (if entries.isEmpty then nullAV else AV.ofM entries)
      | .map entries =>
        match encodeMapEntries nes ftag entries with
        | .error e => .error e
        | .ok kept => .ok (if kept.isEmpty then nullAV else AV.ofM kept)
      | .bytes b => .ok (if b.isEmpty then nullAV else AV.ofB b)
      | .bytesSlices l =>
        match encodeBSElems ftag l (SetAcc.bs []) 0 with
        | .error e => .error e
        | .ok (n, acc) => .ok (if n = 0 then nullAV else acc.toAV)
      | .slice l =>
        match encodeSetElems nes ftag l (sliceMode ftag) 0 with
        | .error e => .error e
        | .ok (n, acc) => .ok (if n = 0 then nullAV else acc.toAV)
      | .array l =>
        match encodeSetElems nes ftag l (sliceMode ftag) 0 with
        | .error e => .error e
        | .ok (n, acc) => .ok (if n = 0 then nullAV else acc.toAV)
      | .chanV => .ok emptyAV
      | .funcV => .ok emptyAV
      | .unsafeV => .ok emptyAV
      | v => encodeScalar nes ftag v

/-- `encodeStruct`'s field loop: empty wire name is a hard error, each
field is encoded with its own options, `keepOrOmitEmpty` decides keeping;
entries are produced in field-resolution order. -/
def encodeStructFields (nes : Bool) : List (String × Tag × GoVal) →
    Except MErr (List (String × Option AV))
  | [] => .ok []
  | (name, ftag, fv) :: rest =>
    if name = "" then .error (.invalidMarshal "map key cannot be empty")
    else
      match keepOrOmitEmpty ftag.omitEmpty (encode nes ftag fv) with
      | .error e => .error e
      | .ok none => encodeStructFields nes rest
      | .ok (some elem) =>
        match encodeStructFields nes rest with
        | .error e => .error e
        | .ok entries => .ok ((name, some elem) :: entries)

/-- `encodeMap`'s entry loop: empty stringified key is a hard error,
values are encoded with `tag{}`, `keepOrOmitEmpty` uses the field's
`OmitEmptyElem`.  Go map iteration order is unspecified; the model
iterates in list order (a deterministic refinement the spec endorses). -/
def encodeMapEntries (nes : Bool) (ftag : Tag) : List (String × GoVal) →
    Except MErr (List (String × Option AV))
  | [] => .ok []
  | (key, ev) :: rest =>
    if key = "" then .error (.invalidMarshal "map key cannot be empty")
    else
      match keepOrOmitEmpty ftag.omitEmptyElem (encode nes Tag.none ev) with
      | .error e => .error e
      | .ok none => encodeMapEntries nes ftag rest
      | .ok (some elem) =>
        match encodeMapEntries nes ftag rest with
        | .error e => .error e
        | .ok entries => .ok ((key, some elem) :: entries)

/-- `encodeList`: per element, encode with
`tag{OmitEmpty: fieldTag.OmitEmptyElem}`, apply `keepOrOmitEmpty`, then
the mode's `elemFn`; returns the kept-element count and accumulator. -/
def encodeSetElems (nes : Bool) (ftag : Tag) : List GoVal → SetAcc → Nat →
    Except MErr (Nat × SetAcc)
  | [], acc, count => .ok (count, acc)
  | e :: rest, acc, count =>
    match keepOrOmitEmpty ftag.omitEmptyElem
        (encode nes { omitEmpty := ftag.omitEmptyElem } e) with
    | .error err => .error err
    | .ok none => encodeSetElems nes ftag rest acc count
    | .ok (some elem) =>
      match elemFnStep acc elem with
      | .error err => .error err
      | .ok acc' => encodeSetElems nes ftag rest acc' (count + 1)

end

/-- `Encoder.Encode(in)`: encode with the empty `tag{}`. -/
def Encode (nes : Bool) (v : GoVal) : Except MErr AV := encode nes Tag.none v

/-! ## Decoder (`src/service/dynamodb/dynamodbattribute/decode.go`) -/

/-- Decoding errors: `UnmarshalTypeError` (tagged with the wire-variant
name it reports) and the raw `strconv` error that `decodeNumber` returns
for a failed parse. -/
inductive DErr : Type where
  | unmarshalType (wire : String)
  | strconvErr
  deriving DecidableEq, Repr

/-- Outcome of a decoding step: an updated value, an error, or a Go
panic (`reflect.Value.SetLen` on a non-slice value). -/
inductive DOut (α : Type) : Type where
  | ok (a : α)
  | err (e : DErr)
  | panicked

/-- Decode results for a single target location. -/
abbrev DRes := DOut GoVal

mutual

/-- `reflect.Zero(t)`: the zero value of a type. -/
def zero : GoTy → GoVal
  | .int w => .int w 0
  | .uint w => .uint w 0
  | .bool => .bool false
  | .str => .str ""
  | .bytes => .bytes []
  | .bytesSlices => .bytesSlices []
  | .slice _ => .slice []
  | .array n e => .array (List.replicate n (zero e))
  | .map _ => .map []
  | .struct fl => .struct (zeroFields fl)
  | .ptr _ => .ptr none
  | .iface => .nilIface
  | .chanK => .chanV
  | .funcK => .funcV
  | .unsafeK => .unsafeV
  | .complexK => .complexV

/-- Zero values of a struct type's fields. -/
def zeroFields : List (String × Tag × GoTy) → List (String × Tag × GoVal)
  | [] => []
  | (name, t, ty) :: rest => (name, t, zero ty) :: zeroFields rest
end

/-- Whether a type is a pointer kind. -/
def GoTy.isPtr : GoTy → Bool
  | .ptr _ => true
  | _ => false

/-- The value stored behind a pointer location of pointee type `t`,
allocating the zero pointee when nil (`v.Set(reflect.New(...))` inside
`indirect`). -/
def ptrInner (t : GoTy) : GoVal → GoVal
  | .ptr (some x) => x
  | _ => zero t

/-- `indirect(v, true)` followed by `decodeNull`: walking a null into a
location keeps descending while the pointee kind is itself a pointer
(allocating on the way), and zeroes the location where it stops — a
pointer to a non-pointer is itself set to nil, any other location is set
to its zero value. -/
def decodeNullInto : GoTy → GoVal → GoVal
  | .ptr t, cur => if t.isPtr then .ptr (some (decodeNullInto t (ptrInner t cur))) else .ptr none
  | ty, _ => zero ty

/-- Rewrap a decoded pointee into its pointer location. -/
def DOut.wrapPtr : DRes → DRes
  | .ok v => .ok (.ptr (some v))
  | .err e => .err e
  | .panicked => .panicked

/-- `indirect(v, false)` around a non-recursive element decoder: resolve
pointer locations (allocating zero pointees as needed), apply the
decoder, rewrap. -/
def withIndirect (f : GoTy → GoVal → DRes) : GoTy → GoVal → DRes
  | .ptr t, cur => (withIndirect f t (ptrInner t cur)).wrapPtr
  | ty, cur => f ty cur

/-- Element type of a slice-kind target (`[]byte` has `uint8` elements,
`[][]byte` has `[]byte` elements); `none` for non-slice kinds. -/
def elemTyOfSliceKind : GoTy → Option GoTy
  | .bytes => some (.uint .i8)
  | .bytesSlices => some .bytes
  | .slice e => some e
  | _ => none

/-- The current elements of a slice-kind value, as `GoVal`s. -/
def sliceElems : GoVal → List GoVal
  | .bytes b => b.map (.uint .i8)
  | .bytesSlices l => l.map .bytes
  | .slice l => l
  | _ => []

/-- Rebuild a slice-kind value of type `ty` from decoded elements. -/
def rebuildSlice (ty : GoTy) (elems : List GoVal) : GoVal :=
  match ty with
  | .bytes => .bytes (elems.map fun v => match v with | .uint _ n => n | _ => 0)
  | .bytesSlices => .bytesSlices (elems.map fun v => match v with | .bytes b => b | _ => [])
  | _ => .slice elems

/-- The set-decoding loop over wire elements paired with the target
elements exposed by `SetLen` (the two lists have equal length at every
call site), stopping at the first error. -/
def decodeSetLoop {α : Type} (dec : α → GoVal → DRes) :
    List α → List GoVal → DOut (List GoVal)
  | [], _ => .ok []
  | _ :: _, [] => .ok []
  | a :: as, c :: cs =>
    match dec a c with
    | .ok v =>
      match decodeSetLoop dec as cs with
      | .ok vs => .ok (v :: vs)
      | .err e => .err e
      | .panicked => .panicked
    | .err e => .err e
    | .panicked => .panicked

/-- The slice-target preparation shared by the set/list decoders:
`if v.IsNil() || v.Cap() < n { v.Set(reflect.MakeSlice(v.Type(), 0, n)) }`
followed by the incremental `SetLen` exposure — a reallocated slice
exposes zero elements, a reused one its existing elements, and the
visible length becomes `n`. -/
def sliceBase (ety : GoTy) (cur : List GoVal) (n : Nat) : List GoVal :=
  if cur.length < n then List.replicate n (zero ety) else cur.take n

/-- `Decoder.decodeBinary`: interface targets get a fresh byte slice,
`[]byte` targets are overwritten, byte-array targets are truncating
copies (`reflect.Copy`), anything else is an `UnmarshalTypeError`. -/
def decodeBinary (b : List Nat) (ty : GoTy) (cur : GoVal) : DRes :=
  match ty with
  | .iface => .ok (.bytes b)
  | .bytes => .ok (.bytes b)
  | .array n (.uint .i8) =>
    let curl := sliceElems cur
    .ok (.array ((List.range n).map fun i =>
      if i < b.length then .uint .i8 (b.getD i 0) else curl.getD i (.uint .i8 0)))
  | _ => .err (.unmarshalType "binary")

/-- `Decoder.decodeBool`. -/
def decodeBool (b : Bool) (ty : GoTy) (cur : GoVal) : DRes :=
  match ty with
  | .bool => .ok (.bool b)
  | .iface => .ok (.bool b)
  | _ => .err (.unmarshalType "bool")

/-- `v.OverflowInt(i)` for a target of kind `w`. -/
def overflowInt (w : IW) (i : Int) : Bool :=
  decide (i < -((2 : Int) ^ (w.bits - 1))) || decide ((2 : Int) ^ (w.bits - 1) ≤ i)

/-- `v.OverflowUint(u)` for a target of kind `w`. -/
def overflowUint (w : IW) (u : Nat) : Bool := decide (2 ^ w.bits ≤ u)

/-- `Decoder.decodeNumberToInterface`: try `ParseInt`, then `ParseUint`,
then `ParseFloat`; the produced native types are `int`, `uint` and
`float64`. -/
def decodeNumberToInterface (n : String) : DRes :=
  match parseInt64 n with
  | some i => .ok (.int .i i)
  | none =>
    match parseUint64 n with
    | some u => .ok (.uint .i u)
    | none =>
      match parseFloat64 n with
      | some tok => .ok (.float64 tok)
      | none => .err .strconvErr

/-- `Decoder.decodeNumber`: interface targets via
`decodeNumberToInterface`; integer kinds parse then check overflow —
note that `if err != nil || v.OverflowInt(i) { return err }` returns the
*nil* error when the 64-bit parse succeeded but the narrower target
overflows, so that case succeeds without modifying the target. -/
def decodeNumber (n : String) (ty : GoTy) (cur : GoVal) : DRes :=
  match ty with
  | .iface => decodeNumberToInterface n
  | .int w =>
    match parseInt64 n with
    | none => .err .strconvErr
    | some i => if overflowInt w i then .ok cur else .ok (.int w i)
  | .uint w =>
    match parseUint64 n with
    | none => .err .strconvErr
    | some u => if overflowUint w u then .ok cur else .ok (.uint w u)
  | _ => .err (.unmarshalType "number")

/-- `Decoder.decodeString`: a `string` field tagged `,string` is routed
back through `decodeNumber`. -/
def decodeString (s : String) (ty : GoTy) (ftag : Tag) (cur : GoVal) : DRes :=
  if ftag.asString then decodeNumber s ty cur
  else
    match ty with
    | .str => .ok (.str s)
    | .iface => .ok (.str s)
    | _ => .err (.unmarshalType "string")

/-- `Decoder.decodeBinarySet`: slice targets are prepared by `sliceBase`
and filled element-wise through `indirect` + `decodeBinary`; array
targets hit `v.SetLen` — a panic for any non-zero length; interface
targets get a fresh `[][]byte`. -/
def decodeBinarySet (bs : List (List Nat)) (ty : GoTy) (cur : GoVal) : DRes :=
  match ty with
  | .iface =>
    match decodeSetLoop (fun b c => decodeBinary b .bytes c) bs
        (List.replicate bs.length (zero .bytes)) with
    | .ok vs => .ok (rebuildSlice .bytesSlices vs)
    | .err e => .err e
    | .panicked => .panicked
  | .array n _ => if n = 0 || bs.isEmpty then .ok cur else .panicked
  | ty =>
    match elemTyOfSliceKind ty with
    | none => .err (.unmarshalType "binary set")
    | some ety =>
      match decodeSetLoop (fun b c => withIndirect (fun t c2 => decodeBinary b t c2) ety c)
          bs (sliceBase ety (sliceElems cur) bs.length) with
      | .ok vs => .ok (rebuildSlice ty vs)
      | .err e => .err e
      | .panicked => .panicked

/-- `Decoder.decodeNumberSet`: like `decodeBinarySet`, with
`decodeNumber` elements; interface targets get a fresh `[]interface{}`. -/
def decodeNumberSet (ns : List String) (ty : GoTy) (cur : GoVal) : DRes :=
  match ty with
  | .iface =>
    match decodeSetLoop (fun n c => decodeNumber n .iface c) ns
        (List.replicate ns.length GoVal.nilIface) with
    | .ok vs => .ok (.slice vs)
    | .err e => .err e
    | .panicked => .panicked
  | .array n _ => if n = 0 || ns.isEmpty then .ok cur else .panicked
  | ty =>
    match elemTyOfSliceKind ty with
    | none => .err (.unmarshalType "number set")
    | some ety =>
      match decodeSetLoop (fun n c => withIndirect (fun t c2 => decodeNumber n t c2) ety c)
          ns (sliceBase ety (sliceElems cur) ns.length) with
      | .ok vs => .ok (rebuildSlice ty vs)
      | .err e => .err e
      | .panicked => .panicked

/-- `Decoder.decodeStringSet`: like `decodeBinarySet`, with
`decodeString` (and `tag{}`) elements; interface targets get a fresh
`[]string`. -/
def decodeStringSet (ss : List String) (ty : GoTy) (cur : GoVal) : DRes :=
  match ty with
  | .iface =>
    match decodeSetLoop (fun s c => decodeString s .str Tag.none c) ss
        (List.replicate ss.length (zero .str)) with
    | .ok vs => .ok (.slice vs)
    | .err e => .err e
    | .panicked => .panicked
  | .array n _ => if n = 0 || ss.isEmpty then .ok cur else .panicked
  | ty =>
    match elemTyOfSliceKind ty with
    | none => .err (.unmarshalType "string set")
    | some ety =>
      match decodeSetLoop (fun s c => withIndirect (fun t c2 => decodeString s t Tag.none c2) ety c)
          ss (sliceBase ety (sliceElems cur) ss.length) with
      | .ok vs => .ok (rebuildSlice ty vs)
      | .err e => .err e
      | .panicked => .panicked

/-- Set-or-replace of a key in a Go map modelled as an ordered entry
list. -/
def mapSet : List (String × GoVal) → String → GoVal → List (String × GoVal)
  | [], k, v => [(k, v)]
  | (k', v') :: rest, k, v =>
    if k' = k then (k, v) :: rest else (k', v') :: mapSet rest k v

/-- `fieldByName(fields, k)` over resolved descriptors: exact-name
lookup returning the field's index, options and type. -/
def fieldIdx (flds : List (String × Tag × GoTy)) (k : String) : Option (Nat × Tag × GoTy) :=
  match flds with
  | [] => none
  | (name, t, ty) :: rest =>
    if name = k then some (0, t, ty)
    else
      match fieldIdx rest k with
      | some (i, t', ty') => some (i + 1, t', ty')
      | none => none

/-- The current entries of a map location (`v.IsNil()` reallocation and
a non-map stored value both start from no entries). -/
def mapEntriesOf : GoVal → List (String × GoVal)
  | .map l => l
  | _ => []

/-- The current field values of a struct location (zero values when the
stored value does not have the expected struct shape). -/
def structVals (flds : List (String × Tag × GoTy)) : GoVal → List GoVal
  | .struct fvl => if fvl.length = flds.length then fvl.map (fun f => f.2.2)
      else flds.map fun f => zero f.2.2
  | _ => flds.map fun f => zero f.2.2

mutual

/-- `Decoder.decode`: a nil or NULL attribute value takes the null path
(`indirect(v, true)` + `decodeNull`); otherwise pointers are resolved
(`indirect(v, false)`) and the first populated variant field, probed in
the source's order (B, BOOL, BS, L, M, N, NS, S, SS), is dispatched; an
attribute value with no populated variant falls through and leaves the
target untouched (`return nil`). -/
def decodeD : Option AV → GoTy → GoVal → Tag → DRes
  | none, ty, cur, _ => .ok (decodeNullInto ty cur)
  | some (.mk B BOOLf BSf Lf Mf Nf NSf Sf SSf NULLf), ty, cur, ftag =>
    if NULLf.isSome then .ok (decodeNullInto ty cur)
    else
      match ty with
      | .ptr t =>
        (decodeD (some (.mk B BOOLf BSf Lf Mf Nf NSf Sf SSf NULLf)) t (ptrInner t cur) ftag).wrapPtr
      | ty =>
        if !(B.getD []).isEmpty then decodeBinary (B.getD []) ty cur
        else if BOOLf.isSome then decodeBool (BOOLf.getD false) ty cur
        else if !BSf.isEmpty then decodeBinarySet BSf ty cur
        else if !Lf.isEmpty then decodeList Lf ty cur
        else if !Mf.isEmpty then decodeMap Mf ty cur
        else if Nf.isSome then decodeNumber (Nf.getD "") ty cur
        else if !NSf.isEmpty then decodeNumberSet NSf ty cur
        else if Sf.isSome then decodeString (Sf.getD "") ty ftag cur
        else if !SSf.isEmpty then decodeStringSet SSf ty cur
        else .ok cur
termination_by av ty cur ftag => (sizeOf av, sizeOf ty)

/-- `Decoder.decodeList`: slice targets via `sliceBase` and element-wise
`decode` with `tag{}`; array targets hit `v.SetLen` — a panic for any
non-zero length; interface targets get a fresh `[]interface{}`. -/
def decodeList (avl : List (Option AV)) (ty : GoTy) (cur : GoVal) : DRes :=
  match ty with
  | .iface =>
    match decodeListElems avl .iface (List.replicate avl.length GoVal.nilIface) with
    | .ok vs => .ok (.slice vs)
    | .err e => .err e
    | .panicked => .panicked
  | .array n _ => if n = 0 || avl.isEmpty then .ok cur else .panicked
  | ty =>
    match elemTyOfSliceKind ty with
    | none => .err (.unmarshalType "list")
    | some ety =>
      match decodeListElems avl ety (sliceBase ety (sliceElems cur) avl.length) with
      | .ok vs => .ok (rebuildSlice ty vs)
      | .err e => .err e
      | .panicked => .panicked
termination_by (sizeOf avl + 1, 0)

/-- The list-decoding loop (wire elements paired with the exposed target
elements, equal lengths at every call site). -/
def decodeListElems : List (Option AV) → GoTy → List GoVal → DOut (List GoVal)
  | [], _, _ => .ok []
  | _ :: _, _, [] => .ok []
  | a :: as, ety, c :: cs =>
    match decodeD a ety c Tag.none with
    | .ok v =>
      match decodeListElems as ety cs with
      | .ok vs => .ok (v :: vs)
      | .err e => .err e
      | .panicked => .panicked
    | .err e => .err e
    | .panicked => .panicked
termination_by avl ety base => (sizeOf avl, 0)

/-- `Decoder.decodeMap`: map targets (string keys by construction of
`GoTy.map`) are created when nil and filled entry-wise into fresh
zero-valued elements (Go map values are unaddressable, so
`reflect.New(...)` runs for every entry); struct targets decode each
wire entry into the field of the same resolved name, ignoring unknown
keys; interface targets get a fresh `map[string]interface{}`. -/
def decodeMap (m : List (String × Option AV)) (ty : GoTy) (cur : GoVal) : DRes :=
  match ty with
  | .map ety =>
    match decodeMapEntriesD m ety (mapEntriesOf cur) with
    | .ok l => .ok (.map l)
    | .err e => .err e
    | .panicked => .panicked
  | .struct flds =>
    match decodeStructEntriesD m flds (structVals flds cur) with
    | .ok vals => .ok (.struct (flds.zipWith (fun f v => (f.1, f.2.1, v)) vals))
    | .err e => .err e
    | .panicked => .panicked
  | .iface =>
    match decodeMapEntriesD m .iface [] with
    | .ok l => .ok (.map l)
    | .err e => .err e
    | .panicked => .panicked
  | _ => .err (.unmarshalType "map")
termination_by (sizeOf m + 1, 0)

/-- The map-entry loop: each wire entry decoded into a fresh zero
element, then inserted. -/
def decodeMapEntriesD (m : List (String × Option AV)) (ety : GoTy)
    (acc : List (String × GoVal)) : DOut (List (String × GoVal)) :=
  match m with
  | [] => .ok acc
  | (k, av) :: rest =>
    match decodeD av ety (zero ety) Tag.none with
    | .ok v => decodeMapEntriesD rest ety (mapSet acc k v)
    | .err e => .err e
    | .panicked => .panicked
termination_by (sizeOf m, 0)

/-- The struct-entry loop: wire entries whose key resolves to a field
are decoded into that field (with the field's tag); unknown keys are
skipped. -/
def decodeStructEntriesD (m : List (String × Option AV))
    (flds : List (String × Tag × GoTy)) (vals : List GoVal) : DOut (List GoVal) :=
  match m with
  | [] => .ok vals
  | (k, av) :: rest =>
    match fieldIdx flds k with
    | none => decodeStructEntriesD rest flds vals
    | some (i, ftag, fty) =>
      match decodeD av fty (vals.getD i (zero fty)) ftag with
      | .ok v => decodeStructEntriesD rest flds (vals.set i v)
      | .err e => .err e
      | .panicked => .panicked
termination_by (sizeOf m, 0)

end

/-- `Decoder.Decode(av, &out)`: decode into the location `out` points
at, with the empty `tag{}`. -/
def Decode (av : AV) (ty : GoTy) (cur : GoVal) : DRes :=
  decodeD (some av) ty cur Tag.none

/-! ## Claims C2–C5, C7 (decoder behaviour) -/

/-- C2 — the code, evaluated at the spec's own example: decoding the
wire number `"300"` into a `uint8` target currently holding `7`.
`ParseUint` succeeds with 300, `v.OverflowUint(300)` is true for an
8-bit target, and `return err` then returns the *nil* parse error: the
call reports success and the target keeps its old value, instead of
failing with an overflow error as the claim states. -/
theorem c2_overflow_returns_nil_and_leaves_target :
    Decode (AV.ofN "300") (.uint .i8) (.uint .i8 7) = .ok (.uint .i8 7) ∧
    overflowUint .i8 300 = true := by
  constructor
  · have h : parseUint64 "300" = some 300 := by decide
    simp [Decode, decodeD, AV.ofN, decodeNumber, h, overflowUint, IW.bits]
  · decide

/-- C3 — numeric disambiguation for `interface{}` targets: `decodeNumber`
on an interface target delegates to `decodeNumberToInterface`, which
tries the signed 64-bit parse, then the unsigned 64-bit parse, then the
float parse, the first success determining the produced type; in
particular `"123"` yields a signed integer, `"18446744073709551615"` an
unsigned integer, and `"123.5"` a floating-point value. -/
theorem c3_numeric_disambiguation :
    (∀ (s : String) (cur : GoVal), decodeNumber s .iface cur = decodeNumberToInterface s) ∧
    (∀ (s : String) (i : Int), parseInt64 s = some i →
      decodeNumberToInterface s = .ok (.int .i i)) ∧
    (∀ (s : String) (u : Nat), parseInt64 s = none → parseUint64 s = some u →
      decodeNumberToInterface s = .ok (.uint .i u)) ∧
    (∀ (s tok : String), parseInt64 s = none → parseUint64 s = none →
      parseFloat64 s = some tok → decodeNumberToInterface s = .ok (.float64 tok)) ∧
    decodeNumberToInterface "123" = .ok (.int .i 123) ∧
    decodeNumberToInterface "18446744073709551615" = .ok (.uint .i 18446744073709551615) ∧
    decodeNumberToInterface "123.5" = .ok (.float64 "123.5") := by
  refine ⟨fun s cur => rfl, fun s i h => ?_, fun s u h1 h2 => ?_, fun s tok h1 h2 h3 => ?_,
    rfl, rfl, rfl⟩
  · simp [decodeNumberToInterface, h]
  · simp [decodeNumberToInterface, h1, h2]
  · simp [decodeNumberToInterface, h1, h2, h3]

/-- Witness for C3 at concrete inputs. -/
theorem c3_numeric_disambiguation_witness :
    decodeNumberToInterface "7" = .ok (.int .i 7) :=
  c3_numeric_disambiguation.2.1 "7" 7 (by decide)

/-- The pointer allocation `indirect(v, false)` performs on its way to
the final non-pointer location, leaving that location's value as it is. -/
def allocPtrs : GoTy → GoVal → GoVal
  | .ptr t, cur => .ptr (some (allocPtrs t (ptrInner t cur)))
  | _, cur => cur

/-- C4, counterexample — an attribute value with every variant field
empty or unset is *not* decoded like wire null: null zeroes an `int`
target holding 5, while the all-empty value falls through the variant
dispatch and leaves it at 5. -/
theorem c4_counterexample :
    Decode emptyAV (.int .i) (.int .i 5) = .ok (.int .i 5) ∧
    Decode nullAV (.int .i) (.int .i 5) = .ok (.int .i 0) ∧
    GoVal.int .i 5 ≠ GoVal.int .i 0 := by
  refine ⟨?_, ?_, ?_⟩
  · simp [Decode, decodeD, emptyAV]
  · simp [Decode, decodeD, nullAV, decodeNullInto, zero]
  · intro h
    injection h with h1 h2
    exact absurd h2 (by decide)

/-- C4, amended — decoding an attribute value in which every variant
field is empty or unset resolves (and allocates) pointer indirections
exactly as a non-null decode does, and then leaves the resolved target
untouched, returning success; it is *not* treated as wire null (only a
nil attribute value or one whose `NULL` field is set takes the null
path). -/
theorem c4_all_empty_leaves_target_untouched :
    ∀ (ty : GoTy) (cur : GoVal), Decode emptyAV ty cur = .ok (allocPtrs ty cur)
  | .ptr t, cur => by
    have ih := c4_all_empty_leaves_target_untouched t (ptrInner t cur)
    simp only [Decode, emptyAV] at ih ⊢
    simp only [decodeD, Option.isSome_none, Bool.false_eq_true, if_false, ih,
      DOut.wrapPtr, allocPtrs]
  | .int w, cur => by simp [Decode, decodeD, emptyAV, allocPtrs]
  | .uint w, cur => by simp [Decode, decodeD, emptyAV, allocPtrs]
  | .bool, cur => by simp [Decode, decodeD, emptyAV, allocPtrs]
  | .str, cur => by simp [Decode, decodeD, emptyAV, allocPtrs]
  | .bytes, cur => by simp [Decode, decodeD, emptyAV, allocPtrs]
  | .bytesSlices, cur => by simp [Decode, decodeD, emptyAV, allocPtrs]
  | .slice e, cur => by simp [Decode, decodeD, emptyAV, allocPtrs]
  | .array n e, cur => by simp [Decode, decodeD, emptyAV, allocPtrs]
  | .map e, cur => by simp [Decode, decodeD, emptyAV, allocPtrs]
  | .struct fl, cur => by simp [Decode, decodeD, emptyAV, allocPtrs]
  | .iface, cur => by simp [Decode, decodeD, emptyAV, allocPtrs]
  | .chanK, cur => by simp [Decode, decodeD, emptyAV, allocPtrs]
  | .funcK, cur => by simp [Decode, decodeD, emptyAV, allocPtrs]
  | .unsafeK, cur => by simp [Decode, decodeD, emptyAV, allocPtrs]
  | .complexK, cur => by simp [Decode, decodeD, emptyAV, allocPtrs]
termination_by ty _ => sizeOf ty

/-- C5 — the code, evaluated at fixed-size array targets: decoding a
three-element wire list (or number set) into a `[2]int` array target
panics, because the loop's `v.SetLen(i + 1)` is only defined for slice
values; the excess elements are only "dropped" for a zero-length array,
where the loop body never runs. -/
theorem c5_array_target_panics :
    Decode (AV.ofL [some (AV.ofN "1"), some (AV.ofN "2"), some (AV.ofN "3")])
      (.array 2 (.int .i)) (zero (.array 2 (.int .i))) = .panicked ∧
    Decode (AV.ofNS ["1", "2", "3"]) (.array 2 (.int .i))
      (zero (.array 2 (.int .i))) = .panicked ∧
    Decode (AV.ofSS ["a", "b", "c"]) (.array 2 .str)
      (zero (.array 2 .str)) = .panicked ∧
    Decode (AV.ofBS [[1], [2], [3]]) (.array 2 .bytes)
      (zero (.array 2 .bytes)) = .panicked ∧
    Decode (AV.ofL [some (AV.ofN "1"), some (AV.ofN "2"), some (AV.ofN "3")])
      (.array 0 (.int .i)) (zero (.array 0 (.int .i))) = .ok (.array []) := by
  refine ⟨?_, ?_, ?_, ?_, ?_⟩
  · simp [Decode, decodeD, AV.ofL, decodeList]
  · simp [Decode, decodeD, AV.ofNS, decodeNumberSet]
  · simp [Decode, decodeD, AV.ofSS, decodeStringSet]
  · simp [Decode, decodeD, AV.ofBS, decodeBinarySet]
  · simp [Decode, decodeD, AV.ofL, decodeList, zero]

/-- C7 — decoding wire null into a pointer target that holds a non-nil
value (pointing at a non-pointer) resets the pointer to nil; the target
is never left untouched. -/
theorem c7_null_resets_populated_pointer :
    ∀ (t : GoTy) (cur : GoVal), t.isPtr = false →
      Decode nullAV (.ptr t) (.ptr (some cur)) = .ok (.ptr none) ∧
      GoVal.ptr none ≠ .ptr (some cur) := by
  intro t cur h
  constructor
  · simp [Decode, decodeD, nullAV, decodeNullInto, h]
  · intro hcontra
    injection hcontra with h1
    exact Option.noConfusion h1

/-- Witness for C7 at a concrete populated `*string` target. -/
theorem c7_null_resets_populated_pointer_witness :
    GoTy.str.isPtr = false ∧
    Decode nullAV (.ptr .str) (.ptr (some (.str "abc"))) = .ok (.ptr none) :=
  ⟨rfl, (c7_null_resets_populated_pointer .str (.str "abc") rfl).1⟩


/-! ## Claims C6, C8, C9, C10 (encoder behaviour) -/

/-- `encodeList` over `[]byte` elements in binary-set mode: every
non-empty element is appended in order. -/
theorem encodeBSElems_append (ftag : Tag) (l : List (List Nat))
    (acc : List (List Nat)) (c : Nat) (h : ∀ b ∈ l, b ≠ []) :
    encodeBSElems ftag l (.bs acc) c = .ok (c + l.length, .bs (acc ++ l)) := by
  induction l generalizing acc c with
  | nil => simp [encodeBSElems]
  | cons b rest ih =>
    have hb : b ≠ [] := h b (List.mem_cons_self b rest)
    have hbe : b.isEmpty = false := by simpa [List.isEmpty_iff] using hb
    have hrest : ∀ x ∈ rest, x ≠ [] := fun x hx => h x (List.mem_cons_of_mem b hx)
    simp only [encodeBSElems, encodeBytesElem, hbe, Bool.and_false, Bool.false_eq_true,
      if_false, keepOrOmitEmpty, AV.ofB, AV.NULL, Option.isSome_none, Bool.false_and,
      elemFnStep, AV.B, ih (acc ++ [b]) (c + 1) hrest]
    have h1 : c + 1 + rest.length = c + (b :: rest).length := by
      simp only [List.length_cons]
      omega
    have h2 : acc ++ [b] ++ rest = acc ++ b :: rest := by simp
    rw [h1, h2]

/-- A binary-set accumulator stays a binary-set accumulator. -/
theorem encodeBSElems_bs_shape (ftag : Tag) (l : List (List Nat)) :
    ∀ (acc : List (List Nat)) (c n : Nat) (acc2 : SetAcc),
      encodeBSElems ftag l (.bs acc) c = .ok (n, acc2) → ∃ a, acc2 = .bs a := by
  induction l with
  | nil =>
    intro acc c n acc2 h
    simp only [encodeBSElems] at h
    injection h with h1
    exact ⟨acc, (congrArg Prod.snd h1).symm⟩
  | cons b rest ih =>
    intro acc c n acc2 h
    cases hoe : ftag.omitEmptyElem <;> cases hbe : b.isEmpty <;>
        simp only [encodeBSElems, keepOrOmitEmpty, encodeBytesElem, hoe, hbe, nullAV,
          AV.ofB, AV.NULL, AV.B, elemFnStep, Option.isSome_some, Option.isSome_none,
          Bool.and_self, Bool.true_and, Bool.false_and, Bool.and_false, Bool.and_true,
          if_true, if_false, Bool.false_eq_true, reduceCtorEq] at h <;>
      exact ih _ _ _ _ h

/-- C6 — a record whose field encoding keeps no entries, and a sequence
whose element encoding (after element-level omission) keeps no elements,
both encode as wire null rather than an empty container. -/
theorem c6_zero_entries_encode_null :
    (∀ (nes : Bool) (ftag : Tag) (fl : List (String × Tag × GoVal)),
      encodeStructFields nes fl = .ok [] →
      encode nes ftag (.struct fl) = .ok nullAV) ∧
    (∀ (nes : Bool) (ftag : Tag) (l : List GoVal) (acc : SetAcc),
      encodeSetElems nes ftag l (sliceMode ftag) 0 = .ok (0, acc) →
      encode nes ftag (.slice l) = .ok nullAV) := by
  constructor
  · intro nes ftag fl h
    simp [encode, emptyValue, h]
  · intro nes ftag l acc h
    by_cases hc : (ftag.omitEmpty && emptyValue (.slice l)) = true
    · simp [encode, hc]
    · simp [encode, hc, h]

/-- Witness for C6: the empty record, and a one-element list whose only
element is omitted by `omitemptyelem`, both encode as null. -/
theorem c6_zero_entries_encode_null_witness :
    encode true Tag.none (.struct []) = .ok nullAV ∧
    encode true { omitEmptyElem := true } (.slice [GoVal.int .i 0]) = .ok nullAV :=
  ⟨c6_zero_entries_encode_null.1 true Tag.none [] (by simp [encodeStructFields]),
   c6_zero_entries_encode_null.2 true { omitEmptyElem := true } [GoVal.int .i 0] (.lst [])
     (by simp [encodeSetElems, encode, emptyValue, keepOrOmitEmpty, sliceMode, nullAV, AV.NULL])⟩

/-- C8, counterexample — a record with a single channel-kind field does
*not* omit the field: the `case reflect.Chan, reflect.Func,
reflect.UnsafePointer` branch does nothing, so the field's fresh,
all-unset attribute value is neither an error nor null, and
`keepOrOmitEmpty` keeps it in the wire map. -/
theorem c8_counterexample :
    Encode true (.struct [("F", Tag.none, GoVal.chanV)])
      = .ok (AV.ofM [("F", some emptyAV)]) ∧
    (AV.ofM [("F", some emptyAV)]).M = [("F", some emptyAV)] ∧
    ("F", some emptyAV) ∈ [("F", some emptyAV)] := by
  refine ⟨?_, rfl, List.mem_cons_self _ _⟩
  simp [Encode, encode, encodeStructFields, keepOrOmitEmpty, emptyValue, Tag.none,
    emptyAV, AV.NULL, AV.ofM]

/-- C8, amended — encoding a record with a field of an unsupported kind
never aborts the record, but the treatment differs by kind: a
function/channel/unsafe-pointer field is *kept* in the wire map as an
all-empty attribute value (its "do nothing" branch produces neither an
error nor null), while a scalar kind that falls through to
`encodeNumber`'s default branch (e.g. complex) raises the
unsupported-type error, which `keepOrOmitEmpty` absorbs by omitting the
field — here leaving zero entries, hence wire null. -/
theorem c8_unsupported_kind_field :
    (∀ (nes : Bool) (name : String) (t : Tag), ¬name = "" →
      encode nes Tag.none (.struct [(name, t, GoVal.chanV)])
        = .ok (AV.ofM [(name, some emptyAV)])) ∧
    (∀ (nes : Bool) (name : String) (t : Tag), ¬name = "" →
      encode nes Tag.none (.struct [(name, t, GoVal.funcV)])
        = .ok (AV.ofM [(name, some emptyAV)])) ∧
    (∀ (nes : Bool) (name : String) (t : Tag), ¬name = "" →
      encode nes Tag.none (.struct [(name, t, GoVal.unsafeV)])
        = .ok (AV.ofM [(name, some emptyAV)])) ∧
    (∀ (nes : Bool) (name : String) (t : Tag), ¬name = "" →
      encode nes Tag.none (.struct [(name, t, GoVal.complexV)]) = .ok nullAV) := by
    refine ⟨?_, ?_, ?_, ?_⟩ <;>
      (intro nes name t h;
       simp [encode, encodeStructFields, keepOrOmitEmpty, emptyValue, Tag.none, h,
         emptyAV, AV.NULL, AV.ofM, encodeScalar, encodeNumber])

/-- Witness for C8 at a concrete field name. -/
theorem c8_unsupported_kind_field_witness :
    encode true Tag.none (.struct [("F", Tag.none, GoVal.chanV)])
      = .ok (AV.ofM [("F", some emptyAV)]) ∧
    encode true Tag.none (.struct [("F", Tag.none, GoVal.complexV)]) = .ok nullAV :=
  ⟨(c8_unsupported_kind_field.1 true "F" Tag.none (by decide)),
   (c8_unsupported_kind_field.2.2.2 true "F" Tag.none (by decide))⟩


/-- `encodeList` over `[]byte` values in binary-set mode (`binaryset`
field option on a slice): non-empty byte-slice elements are appended in
input order. -/
theorem encodeSetElems_bytes_bs (nes : Bool) (l : List (List Nat))
    (acc : List (List Nat)) (c : Nat) (h : ∀ b ∈ l, b ≠ []) :
    encodeSetElems nes { asBinSet := true } (l.map GoVal.bytes) (.bs acc) c
      = .ok (c + l.length, .bs (acc ++ l)) := by
  induction l generalizing acc c with
  | nil => simp [encodeSetElems]
  | cons b rest ih =>
    have hb : b ≠ [] := h b (List.mem_cons_self b rest)
    have hbe : b.isEmpty = false := by simpa [List.isEmpty_iff] using hb
    have hrest : ∀ x ∈ rest, x ≠ [] := fun x hx => h x (List.mem_cons_of_mem b hx)
    simp only [List.map_cons, encodeSetElems, encode, emptyValue, hbe, Bool.and_false,
      Bool.false_eq_true, if_false, Bool.false_and, keepOrOmitEmpty, AV.ofB, AV.NULL,
      Option.isSome_none, elemFnStep, AV.B, ih (acc ++ [b]) (c + 1) hrest]
    have h1 : c + 1 + rest.length = c + (b :: rest).length := by
      simp only [List.length_cons]
      omega
    have h2 : acc ++ [b] ++ rest = acc ++ b :: rest := by simp
    rw [h1, h2]

/-- `encodeList` over `int` values in number-set mode (`numberset`
field option): elements are formatted and appended in input order. -/
theorem encodeSetElems_ints_ns (nes : Bool) (l : List Int)
    (acc : List String) (c : Nat) :
    encodeSetElems nes { asNumSet := true } (l.map (GoVal.int .i)) (.ns acc) c
      = .ok (c + l.length, .ns (acc ++ l.map formatInt)) := by
  induction l generalizing acc c with
  | nil => simp [encodeSetElems]
  | cons z rest ih =>
    simp only [List.map_cons, encodeSetElems, encode, encodeScalar, encodeNumber,
      Bool.false_and, Bool.and_false, Bool.false_eq_true, if_false, keepOrOmitEmpty,
      AV.ofN, AV.NULL, AV.N, Option.isSome_none, elemFnStep, ih (acc ++ [formatInt z]) (c + 1)]
    have h1 : c + 1 + rest.length = c + (z :: rest).length := by
      simp only [List.length_cons]
      omega
    have h2 : acc ++ [formatInt z] ++ rest.map formatInt = acc ++ (z :: rest).map formatInt := by
      simp
    rw [h1, h2]
    simp

/-- `encodeList` over `string` values in string-set mode (`stringset`
field option): elements that do not encode to null (non-empty, or
`NullEmptyString` disabled) are appended in input order. -/
theorem encodeSetElems_strs_ss (nes : Bool) (l : List String)
    (acc : List String) (c : Nat) (h : ∀ s ∈ l, s.isEmpty = false ∨ nes = false) :
    encodeSetElems nes { asStrSet := true } (l.map GoVal.str) (.ss acc) c
      = .ok (c + l.length, .ss (acc ++ l)) := by
  induction l generalizing acc c with
  | nil => simp [encodeSetElems]
  | cons sv rest ih =>
    have hs : (sv.isEmpty && nes) = false := by
      rcases h sv (List.mem_cons_self sv rest) with h1 | h1
      · rw [h1]
        exact Bool.false_and nes
      · rw [h1]
        exact Bool.and_false sv.isEmpty
    have hrest : ∀ x ∈ rest, x.isEmpty = false ∨ nes = false :=
      fun x hx => h x (List.mem_cons_of_mem sv hx)
    simp only [List.map_cons, encodeSetElems, encode, encodeScalar, encodeString, hs,
      Bool.false_and, Bool.and_false, Bool.false_eq_true, if_false, keepOrOmitEmpty,
      AV.ofS, AV.NULL, AV.S, Option.isSome_none, elemFnStep, ih (acc ++ [sv]) (c + 1) hrest]
    have h1 : c + 1 + rest.length = c + (sv :: rest).length := by
      simp only [List.length_cons]
      omega
    have h2 : acc ++ [sv] ++ rest = acc ++ sv :: rest := by simp
    try rw [h1]
    try rw [h2]
    try simp
    try omega

/-- C9 — set fidelity: with the `binaryset` option, a slice of non-empty
byte slices encodes to a wire binary set listing the elements in input
order, and an element that does not encode to wire binary (here the
first element, a number) fails the whole encode with the set-element
`InvalidMarshalError`; the analogous order-preservation and
element-subtype checks hold for `numberset` and `stringset`. -/
theorem c9_set_fidelity :
    (∀ (nes : Bool) (l : List (List Nat)), l ≠ [] → (∀ b ∈ l, b ≠ []) →
      encode nes { asBinSet := true } (.slice (l.map GoVal.bytes)) = .ok (AV.ofBS l)) ∧
    (∀ (nes : Bool) (z : Int) (rest : List GoVal),
      encode nes { asBinSet := true } (.slice (GoVal.int .i z :: rest))
        = .error (.invalidMarshal "binary set must only contain non-nil byte slices")) ∧
    (∀ (nes : Bool) (l : List Int), l ≠ [] →
      encode nes { asNumSet := true } (.slice (l.map (GoVal.int .i)))
        = .ok (AV.ofNS (l.map formatInt))) ∧
    (∀ (nes : Bool) (b : Bool) (rest : List GoVal),
      encode nes { asNumSet := true } (.slice (GoVal.bool b :: rest))
        = .error (.invalidMarshal "number set must only contain non-nil string numbers")) ∧
    (∀ (nes : Bool) (l : List String), l ≠ [] → (∀ s ∈ l, s.isEmpty = false ∨ nes = false) →
      encode nes { asStrSet := true } (.slice (l.map GoVal.str)) = .ok (AV.ofSS l)) ∧
    (∀ (nes : Bool) (z : Int) (rest : List GoVal),
      encode nes { asStrSet := true } (.slice (GoVal.int .i z :: rest))
        = .error (.invalidMarshal "string set must only contain non-nil strings")) := by
  refine ⟨?_, ?_, ?_, ?_, ?_, ?_⟩
  · intro nes l hne h
    have hlen : l.length ≠ 0 := by simpa [List.length_eq_zero] using hne
    have hmap : (l.map GoVal.bytes).isEmpty = false := by
      simp [List.isEmpty_iff, hne]
    simp [encode, emptyValue, hmap, sliceMode, encodeSetElems_bytes_bs nes l [] 0 h,
      hlen, SetAcc.toAV]
  · intro nes z rest
    simp [encode, emptyValue, sliceMode, encodeSetElems, encodeScalar, encodeNumber,
      keepOrOmitEmpty, AV.ofN, AV.NULL, AV.N, AV.B, elemFnStep]
  · intro nes l hne
    have hlen : l.length ≠ 0 := by simpa [List.length_eq_zero] using hne
    have hmap : (l.map (GoVal.int .i)).isEmpty = false := by
      simp [List.isEmpty_iff, hne]
    simp [encode, emptyValue, hmap, sliceMode, encodeSetElems_ints_ns nes l [] 0,
      hlen, SetAcc.toAV, List.map_eq_nil_iff, hne]
  · intro nes b rest
    simp [encode, emptyValue, sliceMode, encodeSetElems, encodeScalar, keepOrOmitEmpty,
      AV.ofBOOL, AV.NULL, AV.N, elemFnStep]
  · intro nes l hne h
    have hlen : l.length ≠ 0 := by simpa [List.length_eq_zero] using hne
    have hmap : (l.map GoVal.str).isEmpty = false := by
      simp [List.isEmpty_iff, hne]
    simp [encode, emptyValue, hmap, sliceMode, encodeSetElems_strs_ss nes l [] 0 h,
      hlen, SetAcc.toAV]
  · intro nes z rest
    simp [encode, emptyValue, sliceMode, encodeSetElems, encodeScalar, encodeNumber,
      keepOrOmitEmpty, AV.ofN, AV.NULL, AV.N, AV.S, elemFnStep]

/-- Witness for C9 at concrete inputs. -/
theorem c9_set_fidelity_witness :
    encode true { asBinSet := true } (.slice ([[48], [49]].map GoVal.bytes))
      = .ok (AV.ofBS [[48], [49]]) ∧
    encode true { asNumSet := true } (.slice (([3], [3].map (GoVal.int .i)).2))
      = .ok (AV.ofNS ([3].map formatInt)) :=
  ⟨c9_set_fidelity.1 true [[48], [49]] (by decide) (by decide),
   c9_set_fidelity.2.2.1 true [3] (by decide)⟩

/-- C10, counterexample — the empty `[][]byte` value does not encode to
a wire binary set: the kept-element count is zero, so `encodeNull` runs
and the result is wire null, whose `BS` field is unset. -/
theorem c10_counterexample :
    Encode true (.bytesSlices []) = .ok nullAV ∧ nullAV.BS = [] := by
  constructor
  · simp [Encode, encode, encodeBSElems, Tag.none, emptyValue]
  · rfl

/-- An empty element of a `[][]byte` value encodes to null
(`encodeBytesElem`), which, when `omitemptyelem` does not drop it, the
binary-set `elemFn` rejects (`elem.B == nil`) with the set-element
error, aborting the loop at the first empty element. -/
theorem encodeBSElems_empty_elem (ftag : Tag) (hoee : ftag.omitEmptyElem = false) :
    ∀ (l : List (List Nat)) (a : List (List Nat)) (c : Nat), [] ∈ l →
      encodeBSElems ftag l (.bs a) c
        = .error (.invalidMarshal "binary set must only contain non-nil byte slices") := by
  intro l
  induction l with
  | nil => intro a c h; simp at h
  | cons b rest ih =>
    intro a c h
    simp only [encodeBSElems, hoee, encodeBytesElem, Bool.false_and, Bool.false_eq_true,
      if_false, keepOrOmitEmpty]
    by_cases hb : b = []
    · subst hb
      simp [nullAV, AV.NULL, AV.B, elemFnStep]
    · have hmem : [] ∈ rest := by
        rcases List.mem_cons.mp h with h1 | h1
        · exact absurd h1.symm hb
        · exact h1
      have hbe : b.isEmpty = false := by simpa [List.isEmpty_iff] using hb
      simp only [hbe, Bool.false_eq_true, if_false, AV.ofB, AV.NULL, Option.isSome_none,
        Bool.false_and, elemFnStep, AV.B]
      exact ih (a ++ [b]) (c + 1) hmem

/-- C10, amended — a value of type `[][]byte` always takes the
binary-set branch of `encodeSlice` regardless of field options (the
`v.Type() == byteSliceSlicetype` disjunct), so it can never encode as a
generic list: a non-empty value whose elements are all non-empty
encodes to the wire binary set of its elements in order; the empty
value encodes to wire null; every successful encode leaves the wire
list field unset; and a value containing an empty element fails with
the set-element error when the `omitemptyelem` option (which would
instead drop the empty elements) is not set. -/
theorem c10_forced_binary_set :
    (∀ (nes : Bool) (ftag : Tag) (l : List (List Nat)), l ≠ [] → (∀ b ∈ l, b ≠ []) →
      encode nes ftag (.bytesSlices l) = .ok (AV.ofBS l)) ∧
    (∀ (nes : Bool) (ftag : Tag), encode nes ftag (.bytesSlices []) = .ok nullAV) ∧
    (∀ (nes : Bool) (ftag : Tag) (l : List (List Nat)) (av : AV),
      encode nes ftag (.bytesSlices l) = .ok av → av.L = []) ∧
    (∀ (nes : Bool) (ftag : Tag) (l : List (List Nat)), ftag.omitEmptyElem = false →
      [] ∈ l →
      encode nes ftag (.bytesSlices l)
        = .error (.invalidMarshal "binary set must only contain non-nil byte slices")) := by
  refine ⟨?_, ?_, ?_, ?_⟩
  · intro nes ftag l hne h
    have hlen : l.length ≠ 0 := by simpa [List.length_eq_zero] using hne
    have hmap : (GoVal.bytesSlices l |> emptyValue) = false := by
      simp [emptyValue, List.isEmpty_iff, hne]
    simp [encode, hmap, encodeBSElems_append ftag l [] 0 h, hlen, SetAcc.toAV]
  · intro nes ftag
    by_cases hc : (ftag.omitEmpty && emptyValue (.bytesSlices [])) = true
    · simp [encode, hc]
    · simp [encode, hc, encodeBSElems]
  · intro nes ftag l av h
    by_cases hc : (ftag.omitEmpty && emptyValue (.bytesSlices l)) = true
    · simp only [encode, hc, if_true] at h
      injection h with h1
      subst h1
      rfl
    · simp only [encode, hc, Bool.false_eq_true, if_false] at h
      rcases hE : encodeBSElems ftag l (.bs []) 0 with e | p
      · rw [hE] at h
        cases h
      · rcases p with ⟨n, acc⟩
        obtain ⟨a, rfl⟩ := encodeBSElems_bs_shape ftag l [] 0 n acc hE
        rw [hE] at h
        injection h with h1
        subst h1
        by_cases hn : n = 0 <;> simp [hn, SetAcc.toAV, AV.ofBS, AV.L, nullAV]
  · intro nes ftag l hoee hmem
    have hne : l ≠ [] := fun h0 => by
      rw [h0] at hmem
      simp at hmem
    have hmap : (GoVal.bytesSlices l |> emptyValue) = false := by
      simp [emptyValue, List.isEmpty_iff, hne]
    simp [encode, hmap, encodeBSElems_empty_elem ftag hoee l [] 0 hmem]

/-- Witness for C10 at concrete `[][]byte` values: an all-non-empty
value becomes the binary set, and a value containing an empty element
fails with the set-element error. -/
theorem c10_forced_binary_set_witness :
    encode true Tag.none (.bytesSlices [[7]]) = .ok (AV.ofBS [[7]]) ∧
    encode true Tag.none (.bytesSlices [[7], []])
      = .error (.invalidMarshal "binary set must only contain non-nil byte slices") :=
  ⟨c10_forced_binary_set.1 true Tag.none [[7]] (by decide) (by decide),
   c10_forced_binary_set.2.2.2 true Tag.none [[7], []] rfl (by decide)⟩


/-! ## Claim C1 (round-trip)

The round-trip universe follows the claim's own shape list — scalars,
nested records, sets, lists, maps (`rtTy`); fixed-size arrays (one of
the claim's documented lossy cases), pointers, interfaces, floats and
the unsupported kinds are outside it.  `typed` is the typing relation
tying a value to its Go type (with the machine-integer ranges and the
well-formedness a Go runtime guarantees: distinct map keys, field
descriptors shared between a struct value and its type);
`rtTag` restricts field options to the ones that are data-preserving on
the field's type (no `omitemptyelem`, and `string` only on integer
kinds). -/

/-- Whether a type is a signed or unsigned integer kind. -/
def isNumericTy : GoTy → Bool
  | .int _ => true
  | .uint _ => true
  | _ => false

/-- Field options admissible for round-tripping a field of type `ty`. -/
def rtTag (t : Tag) (ty : GoTy) : Bool :=
  !t.omitEmptyElem && (!t.asString || isNumericTy ty)

mutual

/-- The round-trip universe of types (the claim's supported shapes). -/
def rtTy : GoTy → Bool
  | .int _ => true
  | .uint _ => true
  | .bool => true
  | .str => true
  | .bytes => true
  | .bytesSlices => true
  | .slice e => rtTy e
  | .map e => rtTy e
  | .struct flds => rtFields flds && ((flds.map Prod.fst).Nodup : Bool)
  | _ => false

/-- Well-formedness of resolved field descriptors: non-empty wire names,
admissible options, round-trip field types. -/
def rtFields : List (String × Tag × GoTy) → Bool
  | [] => true
  | (n, t, ty) :: rest => !(n == "") && rtTag t ty && rtTy ty && rtFields rest

end

mutual

/-- Typing of a value at a type, including the integer ranges of the
width and the invariants of Go runtime values (a struct value carries
its type's field descriptors, map keys are distinct). -/
def typed : GoVal → GoTy → Bool
  | .int w z, .int w2 =>
    w == w2 && decide (-((2 : Int) ^ (w2.bits - 1)) ≤ z) && decide (z < (2 : Int) ^ (w2.bits - 1))
  | .uint w n, .uint w2 => w == w2 && decide (n < 2 ^ w2.bits)
  | .bool _, .bool => true
  | .str _, .str => true
  | .bytes _, .bytes => true
  | .bytesSlices _, .bytesSlices => true
  | .slice l, .slice e => typedList l e
  | .map l, .map e => typedEntries l e && ((l.map Prod.fst).Nodup : Bool)
  | .struct fvl, .struct flds => typedFields fvl flds
  | _, _ => false

/-- All elements typed at the element type. -/
def typedList : List GoVal → GoTy → Bool
  | [], _ => true
  | v :: rest, e => typed v e && typedList rest e

/-- All map entry values typed at the element type. -/
def typedEntries : List (String × GoVal) → GoTy → Bool
  | [], _ => true
  | (_, v) :: rest, e => typed v e && typedEntries rest e

/-- A struct value's fields carry the type's descriptors, with each
field value typed at its field type. -/
def typedFields : List (String × Tag × GoVal) → List (String × Tag × GoTy) → Bool
  | [], [] => true
  | (n, t, v) :: rest, (n2, t2, ty) :: rest2 =>
    n == n2 && t == t2 && typed v ty && typedFields rest rest2
  | _, _ => false

end

/-- A round-trip type is not a pointer type, so walking a null into it
zeroes it. -/
theorem decodeNullInto_rt (ty : GoTy) (cur : GoVal) (h : rtTy ty = true) :
    decodeNullInto ty cur = zero ty := by
  cases ty <;> simp_all [decodeNullInto, rtTy]

/-- Decoding wire null. -/
theorem decodeD_nullAV (ty : GoTy) (cur : GoVal) (tag : Tag) :
    decodeD (some nullAV) ty cur tag = .ok (decodeNullInto ty cur) := by
  cases ty <;> simp [decodeD, nullAV, decodeNullInto]

/-- Variant dispatch for a number-only attribute value. -/
theorem decodeD_ofN (s : String) (ty : GoTy) (cur : GoVal) (tag : Tag)
    (h : ty.isPtr = false) :
    decodeD (some (AV.ofN s)) ty cur tag = decodeNumber s ty cur := by
  cases ty <;> simp_all [decodeD, AV.ofN, GoTy.isPtr]

/-- Variant dispatch for a string-only attribute value. -/
theorem decodeD_ofS (s : String) (ty : GoTy) (cur : GoVal) (tag : Tag)
    (h : ty.isPtr = false) :
    decodeD (some (AV.ofS s)) ty cur tag = decodeString s ty tag cur := by
  cases ty <;> simp_all [decodeD, AV.ofS, GoTy.isPtr]

/-- Variant dispatch for a boolean-only attribute value. -/
theorem decodeD_ofBOOL (b : Bool) (ty : GoTy) (cur : GoVal) (tag : Tag)
    (h : ty.isPtr = false) :
    decodeD (some (AV.ofBOOL b)) ty cur tag = decodeBool b ty cur := by
  cases ty <;> simp_all [decodeD, AV.ofBOOL, GoTy.isPtr]

/-- Variant dispatch for a binary-only attribute value. -/
theorem decodeD_ofB (b : List Nat) (ty : GoTy) (cur : GoVal) (tag : Tag)
    (h : ty.isPtr = false) (hb : b ≠ []) :
    decodeD (some (AV.ofB b)) ty cur tag = decodeBinary b ty cur := by
  have hbe : b.isEmpty = false := by simpa [List.isEmpty_iff] using hb
  cases ty <;> simp_all [decodeD, AV.ofB, GoTy.isPtr]

/-- Variant dispatch for a binary-set-only attribute value. -/
theorem decodeD_ofBS (bs : List (List Nat)) (ty : GoTy) (cur : GoVal) (tag : Tag)
    (h : ty.isPtr = false) (hb : bs ≠ []) :
    decodeD (some (AV.ofBS bs)) ty cur tag = decodeBinarySet bs ty cur := by
  have hbe : bs.isEmpty = false := by simpa [List.isEmpty_iff] using hb
  cases ty <;> simp_all [decodeD, AV.ofBS, GoTy.isPtr]

/-- Variant dispatch for a number-set-only attribute value. -/
theorem decodeD_ofNS (ns : List String) (ty : GoTy) (cur : GoVal) (tag : Tag)
    (h : ty.isPtr = false) (hb : ns ≠ []) :
    decodeD (some (AV.ofNS ns)) ty cur tag = decodeNumberSet ns ty cur := by
  have hbe : ns.isEmpty = false := by simpa [List.isEmpty_iff] using hb
  cases ty <;> simp_all [decodeD, AV.ofNS, GoTy.isPtr]

/-- Variant dispatch for a string-set-only attribute value. -/
theorem decodeD_ofSS (ss : List String) (ty : GoTy) (cur : GoVal) (tag : Tag)
    (h : ty.isPtr = false) (hb : ss ≠ []) :
    decodeD (some (AV.ofSS ss)) ty cur tag = decodeStringSet ss ty cur := by
  have hbe : ss.isEmpty = false := by simpa [List.isEmpty_iff] using hb
  cases ty <;> simp_all [decodeD, AV.ofSS, GoTy.isPtr]

/-- Variant dispatch for a list-only attribute value. -/
theorem decodeD_ofL (l : List (Option AV)) (ty : GoTy) (cur : GoVal) (tag : Tag)
    (h : ty.isPtr = false) (hb : l ≠ []) :
    decodeD (some (AV.ofL l)) ty cur tag = decodeList l ty cur := by
  have hbe : l.isEmpty = false := by simpa [List.isEmpty_iff] using hb
  cases ty <;> simp_all [decodeD, AV.ofL, GoTy.isPtr]

/-- Variant dispatch for a map-only attribute value. -/
theorem decodeD_ofM (m : List (String × Option AV)) (ty : GoTy) (cur : GoVal) (tag : Tag)
    (h : ty.isPtr = false) (hb : m ≠ []) :
    decodeD (some (AV.ofM m)) ty cur tag = decodeMap m ty cur := by
  have hbe : m.isEmpty = false := by simpa [List.isEmpty_iff] using hb
  cases ty <;> simp_all [decodeD, AV.ofM, GoTy.isPtr]


/-- `keepOrOmitEmpty` only propagates errors other than the
unsupported-type skip signal. -/
theorem keepOrOmitEmpty_error (oe : Bool) (r : Except MErr AV) (e : MErr)
    (h : keepOrOmitEmpty oe r = .error e) :
    r = .error e ∧ e ≠ .unsupportedMarshalType := by
  cases r with
  | error e2 =>
    cases e2 with
    | invalidMarshal m =>
      simp only [keepOrOmitEmpty] at h
      injection h with h1
      subst h1
      exact ⟨rfl, by simp⟩
    | unsupportedMarshalType => simp [keepOrOmitEmpty] at h
  | ok av =>
    simp only [keepOrOmitEmpty] at h
    split at h <;> cases h

/-- A kept element is the element's own encoding. -/
theorem keepOrOmitEmpty_ok_some (oe : Bool) (r : Except MErr AV) (av : AV)
    (h : keepOrOmitEmpty oe r = .ok (some av)) : r = .ok av := by
  cases r with
  | error e2 =>
    cases e2 with
    | invalidMarshal m => simp [keepOrOmitEmpty] at h
    | unsupportedMarshalType => simp [keepOrOmitEmpty] at h
  | ok av2 =>
    simp only [keepOrOmitEmpty] at h
    split at h
    · cases h
    · injection h with h1
      injection h1 with h2
      rw [h2]

/-- A skipped element was either the unsupported-type signal or a null
encoding under omit-if-empty. -/
theorem keepOrOmitEmpty_ok_none (oe : Bool) (r : Except MErr AV)
    (h : keepOrOmitEmpty oe r = .ok none) :
    r = .error .unsupportedMarshalType ∨
      ∃ av, r = .ok av ∧ (av.NULL.isSome && oe) = true := by
  cases r with
  | error e2 =>
    cases e2 with
    | invalidMarshal m => simp [keepOrOmitEmpty] at h
    | unsupportedMarshalType => exact Or.inl rfl
  | ok av2 =>
    simp only [keepOrOmitEmpty] at h
    split at h
    · next hc => exact Or.inr ⟨av2, rfl, hc⟩
    · cases h

/-- `elemFn` failures are `InvalidMarshalError`s. -/
theorem elemFnStep_error (acc : SetAcc) (elem : AV) (e : MErr)
    (h : elemFnStep acc elem = .error e) : ∃ m, e = .invalidMarshal m := by
  cases acc with
  | bs l =>
    cases hB : elem.B with
    | none =>
      simp only [elemFnStep, hB] at h
      injection h with h1
      exact ⟨_, h1.symm⟩
    | some b => simp [elemFnStep, hB] at h
  | ns l =>
    cases hN : elem.N with
    | none =>
      simp only [elemFnStep, hN] at h
      injection h with h1
      exact ⟨_, h1.symm⟩
    | some n => simp [elemFnStep, hN] at h
  | ss l =>
    cases hS : elem.S with
    | none =>
      simp only [elemFnStep, hS] at h
      injection h with h1
      exact ⟨_, h1.symm⟩
    | some n => simp [elemFnStep, hS] at h
  | lst l => simp [elemFnStep] at h

/-- `encodeList` never fails with the unsupported-type signal: element
encodings that raise it are skipped, and `elemFn` failures are
`InvalidMarshalError`s. -/
theorem encodeSetElems_error_not_unsup (nes : Bool) (ftag : Tag) :
    ∀ (l : List GoVal) (acc : SetAcc) (c : Nat) (e : MErr),
      encodeSetElems nes ftag l acc c = .error e → e ≠ .unsupportedMarshalType := by
  intro l
  induction l with
  | nil => intro acc c e h; simp [encodeSetElems] at h
  | cons v rest ih =>
    intro acc c e h
    simp only [encodeSetElems] at h
    rcases hk : keepOrOmitEmpty ftag.omitEmptyElem
        (encode nes { omitEmpty := ftag.omitEmptyElem } v) with e2 | oav
    · simp only [hk] at h
      injection h with h1
      subst h1
      exact (keepOrOmitEmpty_error _ _ _ hk).2
    · cases oav with
      | none =>
        simp only [hk] at h
        exact ih acc c e h
      | some elem =>
        simp only [hk] at h
        rcases he : elemFnStep acc elem with e2 | acc2
        · simp only [he] at h
          injection h with h1
          subst h1
          obtain ⟨m, rfl⟩ := elemFnStep_error acc elem _ he
          simp
        · simp only [he] at h
          exact ih acc2 (c + 1) e h

/-- `encodeStruct`'s loop never fails with the unsupported-type signal. -/
theorem encodeStructFields_error_not_unsup (nes : Bool) :
    ∀ (fl : List (String × Tag × GoVal)) (e : MErr),
      encodeStructFields nes fl = .error e → e ≠ .unsupportedMarshalType := by
  intro fl
  induction fl with
  | nil => intro e h; simp [encodeStructFields] at h
  | cons f rest ih =>
    intro e h
    obtain ⟨name, ftag, fv⟩ := f
    simp only [encodeStructFields] at h
    by_cases hn : name = ""
    · rw [if_pos hn] at h
      injection h with h1
      subst h1
      simp
    · rw [if_neg hn] at h
      rcases hk : keepOrOmitEmpty ftag.omitEmpty (encode nes ftag fv) with e2 | oav
      · simp only [hk] at h
        injection h with h1
        subst h1
        exact (keepOrOmitEmpty_error _ _ _ hk).2
      · cases oav with
        | none =>
          simp only [hk] at h
          exact ih e h
        | some elem =>
          simp only [hk] at h
          rcases hr : encodeStructFields nes rest with e2 | entries
          · simp only [hr] at h
            injection h with h1
            subst h1
            exact ih _ hr
          · simp only [hr] at h
            cases h


/-- `encodeMap`'s loop never fails with the unsupported-type signal. -/
theorem encodeMapEntries_error_not_unsup (nes : Bool) (ftag : Tag) :
    ∀ (m : List (String × GoVal)) (e : MErr),
      encodeMapEntries nes ftag m = .error e → e ≠ .unsupportedMarshalType := by
  intro m
  induction m with
  | nil => intro e h; simp [encodeMapEntries] at h
  | cons f rest ih =>
    intro e h
    obtain ⟨key, ev⟩ := f
    simp only [encodeMapEntries] at h
    by_cases hn : key = ""
    · rw [if_pos hn] at h
      injection h with h1
      subst h1
      simp
    · rw [if_neg hn] at h
      rcases hk : keepOrOmitEmpty ftag.omitEmptyElem (encode nes Tag.none ev) with e2 | oav
      · simp only [hk] at h
        injection h with h1
        subst h1
        exact (keepOrOmitEmpty_error _ _ _ hk).2
      · cases oav with
        | none =>
          simp only [hk] at h
          exact ih e h
        | some elem =>
          simp only [hk] at h
          rcases hr : encodeMapEntries nes ftag rest with e2 | entries
          · simp only [hr] at h
            injection h with h1
            subst h1
            exact ih _ hr
          · simp only [hr] at h
            cases h

/-- The `[][]byte` loop never fails with the unsupported-type signal. -/
theorem encodeBSElems_error_not_unsup (ftag : Tag) :
    ∀ (l : List (List Nat)) (acc : SetAcc) (c : Nat) (e : MErr),
      encodeBSElems ftag l acc c = .error e → e ≠ .unsupportedMarshalType := by
  intro l
  induction l with
  | nil => intro acc c e h; simp [encodeBSElems] at h
  | cons b rest ih =>
    intro acc c e h
    simp only [encodeBSElems] at h
    rcases hk : keepOrOmitEmpty ftag.omitEmptyElem
        (.ok (encodeBytesElem ftag.omitEmptyElem b)) with e2 | oav
    · simp only [hk] at h
      injection h with h1
      subst h1
      exact (keepOrOmitEmpty_error _ _ _ hk).2
    · cases oav with
      | none =>
        simp only [hk] at h
        exact ih acc c e h
      | some elem =>
        simp only [hk] at h
        rcases he : elemFnStep acc elem with e2 | acc2
        · simp only [he] at h
          injection h with h1
          subst h1
          obtain ⟨m2, rfl⟩ := elemFnStep_error acc elem _ he
          simp
        · simp only [he] at h
          exact ih acc2 (c + 1) e h

/-! ### Scalar encodings in closed form -/

/-- `encodeScalar` on a signed integer. -/
theorem encodeScalar_int (nes : Bool) (tag : Tag) (w : IW) (z : Int) :
    encodeScalar nes tag (.int w z)
      = .ok (if tag.asString then AV.ofS (formatInt z) else AV.ofN (formatInt z)) := by
  by_cases ha : tag.asString = true <;>
    simp [encodeScalar, encodeNumber, avMoveNtoS, AV.ofN, AV.N, AV.NULL, AV.B, AV.BOOL,
      AV.BS, AV.L, AV.M, AV.NS, AV.S, AV.SS, ha, AV.ofS]

/-- `encodeScalar` on an unsigned integer. -/
theorem encodeScalar_uint (nes : Bool) (tag : Tag) (w : IW) (n : Nat) :
    encodeScalar nes tag (.uint w n)
      = .ok (if tag.asString then AV.ofS (formatNat n) else AV.ofN (formatNat n)) := by
  by_cases ha : tag.asString = true <;>
    simp [encodeScalar, encodeNumber, avMoveNtoS, AV.ofN, AV.N, AV.NULL, AV.B, AV.BOOL,
      AV.BS, AV.L, AV.M, AV.NS, AV.S, AV.SS, ha, AV.ofS]

/-- `encode` on a signed integer. -/
theorem encode_int (nes : Bool) (tag : Tag) (w : IW) (z : Int) :
    encode nes tag (.int w z)
      = .ok (if tag.omitEmpty && z == 0 then nullAV
          else if tag.asString then AV.ofS (formatInt z) else AV.ofN (formatInt z)) := by
  by_cases hc : (tag.omitEmpty && z == 0) = true <;>
    simp [encode, emptyValue, hc, encodeScalar_int]

/-- `encode` on an unsigned integer. -/
theorem encode_uint (nes : Bool) (tag : Tag) (w : IW) (n : Nat) :
    encode nes tag (.uint w n)
      = .ok (if tag.omitEmpty && n == 0 then nullAV
          else if tag.asString then AV.ofS (formatNat n) else AV.ofN (formatNat n)) := by
  by_cases hc : (tag.omitEmpty && n == 0) = true <;>
    simp [encode, emptyValue, hc, encodeScalar_uint]

/-- `encode` on a boolean. -/
theorem encode_bool_eq (nes : Bool) (tag : Tag) (b : Bool) :
    encode nes tag (.bool b)
      = .ok (if tag.omitEmpty && !b then nullAV else AV.ofBOOL b) := by
  by_cases hc : (tag.omitEmpty && !b) = true <;>
    simp [encode, emptyValue, hc, encodeScalar]

/-- `encode` on a string. -/
theorem encode_str (nes : Bool) (tag : Tag) (s : String) :
    encode nes tag (.str s)
      = .ok (if tag.omitEmpty && s.isEmpty then nullAV
          else if s.isEmpty && nes then nullAV else AV.ofS s) := by
  by_cases hc : (tag.omitEmpty && s.isEmpty) = true
  · simp [encode, emptyValue, hc]
  · by_cases hc2 : (s.isEmpty && nes) = true <;>
      simp [encode, emptyValue, hc, encodeScalar, encodeString, hc2]

/-- `encode` on a byte slice. -/
theorem encode_bytes (nes : Bool) (tag : Tag) (b : List Nat) :
    encode nes tag (.bytes b)
      = .ok (if tag.omitEmpty && b.isEmpty then nullAV
          else if b.isEmpty then nullAV else AV.ofB b) := by
  by_cases hc : (tag.omitEmpty && b.isEmpty) = true
  · simp [encode, emptyValue, hc]
  · by_cases hc2 : b.isEmpty = true <;> simp [encode, emptyValue, hc, hc2]

/-- `encode` on a slice (neither `[]byte` nor `[][]byte`). -/
theorem encode_slice_eq (nes : Bool) (tag : Tag) (l : List GoVal) :
    encode nes tag (.slice l)
      = if tag.omitEmpty && l.isEmpty then .ok nullAV
        else
          match encodeSetElems nes tag l (sliceMode tag) 0 with
          | .error e => .error e
          | .ok (n, acc) => .ok (if n = 0 then nullAV else acc.toAV) := by
  by_cases hc : (tag.omitEmpty && l.isEmpty) = true <;> simp [encode, emptyValue, hc]

/-- `encode` on a `[][]byte` value. -/
theorem encode_bytesSlices_eq (nes : Bool) (tag : Tag) (l : List (List Nat)) :
    encode nes tag (.bytesSlices l)
      = if tag.omitEmpty && l.isEmpty then .ok nullAV
        else
          match encodeBSElems tag l (.bs []) 0 with
          | .error e => .error e
          | .ok (n, acc) => .ok (if n = 0 then nullAV else acc.toAV) := by
  by_cases hc : (tag.omitEmpty && l.isEmpty) = true <;> simp [encode, emptyValue, hc]

/-- `encode` on a map. -/
theorem encode_map_eq (nes : Bool) (tag : Tag) (m : List (String × GoVal)) :
    encode nes tag (.map m)
      = if tag.omitEmpty && m.isEmpty then .ok nullAV
        else
          match encodeMapEntries nes tag m with
          | .error e => .error e
          | .ok kept => .ok (if kept.isEmpty then nullAV else AV.ofM kept) := by
  by_cases hc : (tag.omitEmpty && m.isEmpty) = true <;> simp [encode, emptyValue, hc]

/-- `encode` on a struct (never empty for the omit test). -/
theorem encode_struct_eq (nes : Bool) (tag : Tag) (fl : List (String × Tag × GoVal)) :
    encode nes tag (.struct fl)
      = match encodeStructFields nes fl with
        | .error e => .error e
        | .ok entries => .ok (if entries.isEmpty then nullAV else AV.ofM entries) := by
  simp [encode, emptyValue]

/-- Every collection accumulator yields an attribute value without `N`,
`S`, `B` or `BOOL`. -/
theorem SetAcc_toAV_scalar_fields (acc : SetAcc) :
    (acc.toAV).N = none ∧ (acc.toAV).S = none ∧ (acc.toAV).B = none ∧
      (acc.toAV).BOOL = none ∧ (acc.toAV).NULL = none := by
  cases acc <;> exact ⟨rfl, rfl, rfl, rfl, rfl⟩


/-- A value of the round-trip universe never encodes to the
unsupported-type signal (the signal only arises from `encodeNumber`'s
default branch, which no round-trip value reaches directly, and element
occurrences are absorbed by `keepOrOmitEmpty`). -/
theorem encode_rt_not_unsup (nes : Bool) (tag : Tag) (v : GoVal) (ty : GoTy)
    (htv : typed v ty = true) (e : MErr)
    (h : encode nes tag v = .error e) : e ≠ .unsupportedMarshalType := by
  cases v with
  | int w z => rw [encode_int] at h; cases h
  | uint w n => rw [encode_uint] at h; cases h
  | bool b => rw [encode_bool_eq] at h; cases h
  | str s2 => rw [encode_str] at h; cases h
  | bytes b => rw [encode_bytes] at h; cases h
  | bytesSlices l =>
    rw [encode_bytesSlices_eq] at h
    split at h
    · cases h
    · rcases hr : encodeBSElems tag l (.bs []) 0 with e2 | p
      · rw [hr] at h
        injection h with h1
        subst h1
        exact encodeBSElems_error_not_unsup tag l _ _ _ hr
      · rw [hr] at h
        obtain ⟨n, acc⟩ := p
        cases h
  | slice l =>
    rw [encode_slice_eq] at h
    split at h
    · cases h
    · rcases hr : encodeSetElems nes tag l (sliceMode tag) 0 with e2 | p
      · rw [hr] at h
        injection h with h1
        subst h1
        exact encodeSetElems_error_not_unsup nes tag l _ _ _ hr
      · rw [hr] at h
        obtain ⟨n, acc⟩ := p
        cases h
  | array l =>
    have harr : encode nes tag (.array l)
        = if tag.omitEmpty && emptyValue (.array l) then .ok nullAV
          else
            match encodeSetElems nes tag l (sliceMode tag) 0 with
            | .error e2 => .error e2
            | .ok (n, acc) => .ok (if n = 0 then nullAV else acc.toAV) := by
      by_cases hc : (tag.omitEmpty && emptyValue (.array l)) = true <;> simp [encode, hc]
    rw [harr] at h
    split at h
    · cases h
    · rcases hr : encodeSetElems nes tag l (sliceMode tag) 0 with e2 | p
      · rw [hr] at h
        injection h with h1
        subst h1
        exact encodeSetElems_error_not_unsup nes tag l _ _ _ hr
      · rw [hr] at h
        obtain ⟨n, acc⟩ := p
        cases h
  | map m =>
    rw [encode_map_eq] at h
    split at h
    · cases h
    · rcases hr : encodeMapEntries nes tag m with e2 | kept
      · rw [hr] at h
        injection h with h1
        subst h1
        exact encodeMapEntries_error_not_unsup nes tag m _ hr
      · rw [hr] at h
        cases h
  | struct fl =>
    rw [encode_struct_eq] at h
    rcases hr : encodeStructFields nes fl with e2 | entries
    · rw [hr] at h
      injection h with h1
      subst h1
      exact encodeStructFields_error_not_unsup nes fl _ hr
    · rw [hr] at h
      cases h
  | ptr o =>
    exact absurd htv (by cases ty <;> simp [typed])
  | nilIface => exact absurd htv (by cases ty <;> simp [typed])
  | float64 tok => exact absurd htv (by cases ty <;> simp [typed])
  | chanV => exact absurd htv (by cases ty <;> simp [typed])
  | funcV => exact absurd htv (by cases ty <;> simp [typed])
  | unsafeV => exact absurd htv (by cases ty <;> simp [typed])
  | complexV => exact absurd htv (by cases ty <;> simp [typed])

/-! ### Scalar round trips -/

/-- Integer bounds extracted from typing. -/
theorem typed_int_bounds (w w2 : IW) (z : Int)
    (h : typed (.int w z) (.int w2) = true) :
    w = w2 ∧ -((2 : Int) ^ (w2.bits - 1)) ≤ z ∧ z < (2 : Int) ^ (w2.bits - 1) := by
  simp only [typed, Bool.and_eq_true, beq_iff_eq, decide_eq_true_eq] at h
  exact ⟨h.1.1, h.1.2, h.2⟩

/-- Unsigned bounds extracted from typing. -/
theorem typed_uint_bounds (w w2 : IW) (n : Nat)
    (h : typed (.uint w n) (.uint w2) = true) :
    w = w2 ∧ n < 2 ^ w2.bits := by
  simp only [typed, Bool.and_eq_true, beq_iff_eq, decide_eq_true_eq] at h
  exact ⟨h.1, h.2⟩

/-- Decoding the formatted signed integer back into the same kind. -/
theorem decodeNumber_formatInt (w : IW) (z : Int) (cur : GoVal)
    (hlo : -((2 : Int) ^ (w.bits - 1)) ≤ z) (hhi : z < (2 : Int) ^ (w.bits - 1)) :
    decodeNumber (formatInt z) (.int w) cur = .ok (.int w z) := by
  have hb : ((2 : Int) ^ (w.bits - 1)) ≤ 2 ^ 63 := by cases w <;> norm_num [IW.bits]
  have h63 : ((2 : Int) ^ 63) = 9223372036854775808 := by norm_num
  have hp := parseInt64_formatInt z (by omega) (by omega)
  have h1 : ¬(z < -((2 : Int) ^ (w.bits - 1))) := by omega
  have h2 : ¬((2 : Int) ^ (w.bits - 1) ≤ z) := by omega
  have hov : overflowInt w z = false := by simp [overflowInt, h1, h2]
  simp [decodeNumber, hp, hov]

/-- Decoding the formatted unsigned integer back into the same kind. -/
theorem decodeNumber_formatNat (w : IW) (n : Nat) (cur : GoVal)
    (hn : n < 2 ^ w.bits) :
    decodeNumber (formatNat n) (.uint w) cur = .ok (.uint w n) := by
  have hb : (2 : Nat) ^ w.bits ≤ 2 ^ 64 := by cases w <;> norm_num [IW.bits]
  have h64 : (2 : Nat) ^ 64 = 18446744073709551616 := by norm_num
  have hp := parseUint64_formatNat n (by omega)
  have hov : overflowUint w n = false := by
    simp only [overflowUint, decide_eq_false_iff_not]
    omega
  simp [decodeNumber, hp, hov]

/-- Round trip at a signed integer type. -/
theorem rt_int (nes : Bool) (tag : Tag) (w w2 : IW) (z : Int) (av : AV)
    (htv : typed (.int w z) (.int w2) = true)
    (henc : encode nes tag (.int w z) = .ok av) :
    decodeD (some av) (.int w2) (zero (.int w2)) tag = .ok (.int w z) := by
  obtain ⟨rfl, hlo, hhi⟩ := typed_int_bounds w w2 z htv
  rw [encode_int] at henc
  injection henc with h1
  subst h1
  by_cases hc : (tag.omitEmpty && z == 0) = true
  · have hz : z = 0 := by
      have := (Bool.and_eq_true _ _).mp hc
      simpa using this.2
    subst hz
    rw [if_pos hc, decodeD_nullAV, decodeNullInto_rt _ _ (by simp [rtTy])]
    rfl
  · rw [if_neg hc]
    by_cases ha : tag.asString = true
    · rw [if_pos ha, decodeD_ofS _ _ _ _ (by simp [GoTy.isPtr])]
      simp only [decodeString, ha, if_true]
      exact decodeNumber_formatInt w z _ hlo hhi
    · rw [if_neg ha, decodeD_ofN _ _ _ _ (by simp [GoTy.isPtr])]
      exact decodeNumber_formatInt w z _ hlo hhi

/-- Round trip at an unsigned integer type. -/
theorem rt_uint (nes : Bool) (tag : Tag) (w w2 : IW) (n : Nat) (av : AV)
    (htv : typed (.uint w n) (.uint w2) = true)
    (henc : encode nes tag (.uint w n) = .ok av) :
    decodeD (some av) (.uint w2) (zero (.uint w2)) tag = .ok (.uint w n) := by
  obtain ⟨rfl, hn⟩ := typed_uint_bounds w w2 n htv
  rw [encode_uint] at henc
  injection henc with h1
  subst h1
  by_cases hc : (tag.omitEmpty && n == 0) = true
  · have hz : n = 0 := by
      have := (Bool.and_eq_true _ _).mp hc
      simpa using this.2
    subst hz
    rw [if_pos hc, decodeD_nullAV, decodeNullInto_rt _ _ (by simp [rtTy])]
    rfl
  · rw [if_neg hc]
    by_cases ha : tag.asString = true
    · rw [if_pos ha, decodeD_ofS _ _ _ _ (by simp [GoTy.isPtr])]
      simp only [decodeString, ha, if_true]
      exact decodeNumber_formatNat w n _ hn
    · rw [if_neg ha, decodeD_ofN _ _ _ _ (by simp [GoTy.isPtr])]
      exact decodeNumber_formatNat w n _ hn

/-- Round trip at the boolean type. -/
theorem rt_bool (nes : Bool) (tag : Tag) (b : Bool) (av : AV)
    (henc : encode nes tag (.bool b) = .ok av) :
    decodeD (some av) .bool (zero .bool) tag = .ok (.bool b) := by
  rw [encode_bool_eq] at henc
  injection henc with h1
  subst h1
  by_cases hc : (tag.omitEmpty && !b) = true
  · have hb : b = false := by
      have := (Bool.and_eq_true _ _).mp hc
      simpa using this.2
    subst hb
    rw [if_pos hc, decodeD_nullAV, decodeNullInto_rt _ _ (by simp [rtTy])]
    rfl
  · rw [if_neg hc, decodeD_ofBOOL _ _ _ _ (by simp [GoTy.isPtr])]
    simp [decodeBool]

/-- Round trip at the string type (the `,string` option is inadmissible
on string fields in the round-trip universe). -/
theorem rt_str (nes : Bool) (tag : Tag) (s : String) (av : AV)
    (htag : rtTag tag .str = true)
    (henc : encode nes tag (.str s) = .ok av) :
    decodeD (some av) .str (zero .str) tag = .ok (.str s) := by
  have ha : tag.asString = false := by
    simp only [rtTag, isNumericTy, Bool.and_eq_true, Bool.or_false] at htag
    rcases htag with ⟨h1, h2⟩
    simpa using h2
  rw [encode_str] at henc
  injection henc with h1
  subst h1
  by_cases hc : (tag.omitEmpty && s.isEmpty) = true
  · have hs : s = "" := by
      have := (Bool.and_eq_true _ _).mp hc
      exact (String.isEmpty_iff s).mp this.2
    subst hs
    rw [if_pos hc, decodeD_nullAV, decodeNullInto_rt _ _ (by simp [rtTy])]
    rfl
  · rw [if_neg hc]
    by_cases hc2 : (s.isEmpty && nes) = true
    · have hs : s = "" := by
        have := (Bool.and_eq_true _ _).mp hc2
        exact (String.isEmpty_iff s).mp this.1
      subst hs
      rw [if_pos hc2, decodeD_nullAV, decodeNullInto_rt _ _ (by simp [rtTy])]
      rfl
    · rw [if_neg hc2, decodeD_ofS _ _ _ _ (by simp [GoTy.isPtr])]
      simp [decodeString, ha]

/-- Round trip at the byte-slice type. -/
theorem rt_bytes (nes : Bool) (tag : Tag) (b : List Nat) (av : AV)
    (henc : encode nes tag (.bytes b) = .ok av) :
    decodeD (some av) .bytes (zero .bytes) tag = .ok (.bytes b) := by
  rw [encode_bytes] at henc
  injection henc with h1
  subst h1
  by_cases hc : (tag.omitEmpty && b.isEmpty) = true
  · have hb : b = [] := by
      have := (Bool.and_eq_true _ _).mp hc
      simpa [List.isEmpty_iff] using this.2
    subst hb
    rw [if_pos hc, decodeD_nullAV, decodeNullInto_rt _ _ (by simp [rtTy])]
    rfl
  · rw [if_neg hc]
    by_cases hc2 : b.isEmpty = true
    · have hb : b = [] := by simpa [List.isEmpty_iff] using hc2
      subst hb
      rw [if_pos hc2, decodeD_nullAV, decodeNullInto_rt _ _ (by simp [rtTy])]
      rfl
    · have hb : b ≠ [] := by simpa [List.isEmpty_iff] using hc2
      rw [if_neg hc2, decodeD_ofB _ _ _ _ (by simp [GoTy.isPtr]) hb]
      simp [decodeBinary]


/-- `indirect` is the identity on non-pointer element locations. -/
theorem withIndirect_nonptr (f : GoTy → GoVal → DRes) (ty : GoTy) (cur : GoVal)
    (h : ty.isPtr = false) : withIndirect f ty cur = f ty cur := by
  cases ty <;> simp_all [withIndirect, GoTy.isPtr]

/-- Round-trip types are never pointer types. -/
theorem rtTy_not_ptr (ty : GoTy) (h : rtTy ty = true) : ty.isPtr = false := by
  cases ty <;> simp_all [rtTy, GoTy.isPtr]

/-! ### Typing inversions -/

/-- Typing inversion at a signed integer type. -/
theorem typed_int_inv (v : GoVal) (w : IW) (h : typed v (.int w) = true) :
    ∃ z, v = .int w z ∧ -((2 : Int) ^ (w.bits - 1)) ≤ z ∧ z < (2 : Int) ^ (w.bits - 1) := by
  cases v
  case int w2 z =>
    obtain ⟨rfl, h1, h2⟩ := typed_int_bounds w2 w z h
    exact ⟨z, rfl, h1, h2⟩
  all_goals simp [typed] at h

/-- Typing inversion at an unsigned integer type. -/
theorem typed_uint_inv (v : GoVal) (w : IW) (h : typed v (.uint w) = true) :
    ∃ n, v = .uint w n ∧ n < 2 ^ w.bits := by
  cases v
  case uint w2 n =>
    obtain ⟨rfl, h1⟩ := typed_uint_bounds w2 w n h
    exact ⟨n, rfl, h1⟩
  all_goals simp [typed] at h

/-- Typing inversion at the boolean type. -/
theorem typed_bool_inv (v : GoVal) (h : typed v .bool = true) : ∃ b, v = .bool b := by
  cases v
  case bool b => exact ⟨b, rfl⟩
  all_goals simp [typed] at h

/-- Typing inversion at the string type. -/
theorem typed_str_inv (v : GoVal) (h : typed v .str = true) : ∃ s, v = .str s := by
  cases v
  case str s => exact ⟨s, rfl⟩
  all_goals simp [typed] at h

/-- Typing inversion at the byte-slice type. -/
theorem typed_bytes_inv (v : GoVal) (h : typed v .bytes = true) : ∃ b, v = .bytes b := by
  cases v
  case bytes b => exact ⟨b, rfl⟩
  all_goals simp [typed] at h

/-- Typing inversion at the `[][]byte` type. -/
theorem typed_bytesSlices_inv (v : GoVal) (h : typed v .bytesSlices = true) :
    ∃ l, v = .bytesSlices l := by
  cases v
  case bytesSlices l => exact ⟨l, rfl⟩
  all_goals simp [typed] at h

/-- Typing inversion at a slice type. -/
theorem typed_slice_inv (v : GoVal) (e : GoTy) (h : typed v (.slice e) = true) :
    ∃ l, v = .slice l ∧ typedList l e = true := by
  cases v
  case slice l => exact ⟨l, rfl, by simpa [typed] using h⟩
  all_goals simp [typed] at h

/-- Typing inversion at a map type. -/
theorem typed_map_inv (v : GoVal) (e : GoTy) (h : typed v (.map e) = true) :
    ∃ m, v = .map m ∧ typedEntries m e = true ∧ (m.map Prod.fst).Nodup := by
  cases v
  case map m =>
    have h2 : typedEntries m e = true ∧ (List.map Prod.fst m).Nodup := by
      simpa [typed] using h
    exact ⟨m, rfl, h2.1, h2.2⟩
  all_goals simp [typed] at h

/-- Typing inversion at a struct type. -/
theorem typed_struct_inv (v : GoVal) (flds : List (String × Tag × GoTy))
    (h : typed v (.struct flds) = true) :
    ∃ fvl, v = .struct fvl ∧ typedFields fvl flds = true := by
  cases v
  case struct fvl => exact ⟨fvl, rfl, by simpa [typed] using h⟩
  all_goals simp [typed] at h

/-- An encoding with `N` populated comes from an integer value, and
decoding the number back into the value's type restores the value. -/
theorem encode_N_some (nes : Bool) (tagE : Tag) (v : GoVal) (ty : GoTy) (s : String)
    (av : AV) (hty : rtTy ty = true) (htv : typed v ty = true)
    (ha : tagE.asString = false) (henc : encode nes tagE v = .ok av)
    (hN : av.N = some s) : decodeNumber s ty (zero ty) = .ok v := by
  cases ty with
  | int w =>
    obtain ⟨z, rfl, hlo, hhi⟩ := typed_int_inv v w htv
    rw [encode_int] at henc
    injection henc with h1
    subst h1
    split at hN
    · exact absurd hN (by simp [nullAV, AV.N])
    · rw [ha] at hN
      simp only [Bool.false_eq_true, if_false, AV.ofN, AV.N] at hN
      injection hN with h2
      subst h2
      exact decodeNumber_formatInt w z _ hlo hhi
  | uint w =>
    obtain ⟨n, rfl, hn⟩ := typed_uint_inv v w htv
    rw [encode_uint] at henc
    injection henc with h1
    subst h1
    split at hN
    · exact absurd hN (by simp [nullAV, AV.N])
    · rw [ha] at hN
      simp only [Bool.false_eq_true, if_false, AV.ofN, AV.N] at hN
      injection hN with h2
      subst h2
      exact decodeNumber_formatNat w n _ hn
  | bool =>
    obtain ⟨b, rfl⟩ := typed_bool_inv v htv
    rw [encode_bool_eq] at henc
    injection henc with h1
    subst h1
    split at hN <;> exact absurd hN (by simp [nullAV, AV.ofBOOL, AV.N])
  | str =>
    obtain ⟨s2, rfl⟩ := typed_str_inv v htv
    rw [encode_str] at henc
    injection henc with h1
    subst h1
    split at hN
    · exact absurd hN (by simp [nullAV, AV.N])
    · split at hN <;> exact absurd hN (by simp [nullAV, AV.ofS, AV.N])
  | bytes =>
    obtain ⟨b, rfl⟩ := typed_bytes_inv v htv
    rw [encode_bytes] at henc
    injection henc with h1
    subst h1
    split at hN
    · exact absurd hN (by simp [nullAV, AV.N])
    · split at hN <;> exact absurd hN (by simp [nullAV, AV.ofB, AV.N])
  | bytesSlices =>
    obtain ⟨l, rfl⟩ := typed_bytesSlices_inv v htv
    rw [encode_bytesSlices_eq] at henc
    split at henc
    · injection henc with h1
      subst h1
      exact absurd hN (by simp [nullAV, AV.N])
    · rcases hr : encodeBSElems tagE l (.bs []) 0 with e2 | p
      · rw [hr] at henc
        cases henc
      · obtain ⟨n, acc⟩ := p
        rw [hr] at henc
        injection henc with h1
        subst h1
        split at hN
        · exact absurd hN (by simp [nullAV, AV.N])
        · exact absurd hN (by simp [(SetAcc_toAV_scalar_fields acc).1])
  | slice e =>
    obtain ⟨l, rfl, htl⟩ := typed_slice_inv v e htv
    rw [encode_slice_eq] at henc
    split at henc
    · injection henc with h1
      subst h1
      exact absurd hN (by simp [nullAV, AV.N])
    · rcases hr : encodeSetElems nes tagE l (sliceMode tagE) 0 with e2 | p
      · rw [hr] at henc
        cases henc
      · obtain ⟨n, acc⟩ := p
        rw [hr] at henc
        injection henc with h1
        subst h1
        split at hN
        · exact absurd hN (by simp [nullAV, AV.N])
        · exact absurd hN (by simp [(SetAcc_toAV_scalar_fields acc).1])
  | map e =>
    obtain ⟨m, rfl, _, _⟩ := typed_map_inv v e htv
    rw [encode_map_eq] at henc
    split at henc
    · injection henc with h1
      subst h1
      exact absurd hN (by simp [nullAV, AV.N])
    · rcases hr : encodeMapEntries nes tagE m with e2 | kept
      · rw [hr] at henc
        cases henc
      · rw [hr] at henc
        injection henc with h1
        subst h1
        split at hN <;> exact absurd hN (by simp [nullAV, AV.ofM, AV.N])
  | struct flds =>
    obtain ⟨fvl, rfl, _⟩ := typed_struct_inv v flds htv
    rw [encode_struct_eq] at henc
    rcases hr : encodeStructFields nes fvl with e2 | entries
    · rw [hr] at henc
      cases henc
    · rw [hr] at henc
      injection henc with h1
      subst h1
      split at hN <;> exact absurd hN (by simp [nullAV, AV.ofM, AV.N])
  | _ => exact absurd hty (by simp [rtTy])


/-- An encoding with `S` populated (without the `,string` option) comes
from a string value of string type. -/
theorem encode_S_some (nes : Bool) (tagE : Tag) (v : GoVal) (ty : GoTy) (s : String)
    (av : AV) (hty : rtTy ty = true) (htv : typed v ty = true)
    (ha : tagE.asString = false) (henc : encode nes tagE v = .ok av)
    (hS : av.S = some s) : ty = .str ∧ v = .str s := by
  cases ty with
  | int w =>
    obtain ⟨z, rfl, hlo, hhi⟩ := typed_int_inv v w htv
    rw [encode_int, ha] at henc
    injection henc with h1
    subst h1
    split at hS
    · exact absurd hS (by simp [nullAV, AV.S])
    · exact absurd hS (by simp [AV.ofN, AV.S])
  | uint w =>
    obtain ⟨n, rfl, hn⟩ := typed_uint_inv v w htv
    rw [encode_uint, ha] at henc
    injection henc with h1
    subst h1
    split at hS
    · exact absurd hS (by simp [nullAV, AV.S])
    · exact absurd hS (by simp [AV.ofN, AV.S])
  | bool =>
    obtain ⟨b, rfl⟩ := typed_bool_inv v htv
    rw [encode_bool_eq] at henc
    injection henc with h1
    subst h1
    split at hS <;> exact absurd hS (by simp [nullAV, AV.ofBOOL, AV.S])
  | str =>
    obtain ⟨s2, rfl⟩ := typed_str_inv v htv
    rw [encode_str] at henc
    injection henc with h1
    subst h1
    split at hS
    · exact absurd hS (by simp [nullAV, AV.S])
    · split at hS
      · exact absurd hS (by simp [nullAV, AV.S])
      · simp only [AV.ofS, AV.S] at hS
        injection hS with h2
        subst h2
        exact ⟨rfl, rfl⟩
  | bytes =>
    obtain ⟨b, rfl⟩ := typed_bytes_inv v htv
    rw [encode_bytes] at henc
    injection henc with h1
    subst h1
    split at hS
    · exact absurd hS (by simp [nullAV, AV.S])
    · split at hS <;> exact absurd hS (by simp [nullAV, AV.ofB, AV.S])
  | bytesSlices =>
    obtain ⟨l, rfl⟩ := typed_bytesSlices_inv v htv
    rw [encode_bytesSlices_eq] at henc
    split at henc
    · injection henc with h1
      subst h1
      exact absurd hS (by simp [nullAV, AV.S])
    · rcases hr : encodeBSElems tagE l (.bs []) 0 with e2 | p
      · rw [hr] at henc
        cases henc
      · obtain ⟨n, acc⟩ := p
        rw [hr] at henc
        injection henc with h1
        subst h1
        split at hS
        · exact absurd hS (by simp [nullAV, AV.S])
        · exact absurd hS (by simp [(SetAcc_toAV_scalar_fields acc).2.1])
  | slice e =>
    obtain ⟨l, rfl, htl⟩ := typed_slice_inv v e htv
    rw [encode_slice_eq] at henc
    split at henc
    · injection henc with h1
      subst h1
      exact absurd hS (by simp [nullAV, AV.S])
    · rcases hr : encodeSetElems nes tagE l (sliceMode tagE) 0 with e2 | p
      · rw [hr] at henc
        cases henc
      · obtain ⟨n, acc⟩ := p
        rw [hr] at henc
        injection henc with h1
        subst h1
        split at hS
        · exact absurd hS (by simp [nullAV, AV.S])
        · exact absurd hS (by simp [(SetAcc_toAV_scalar_fields acc).2.1])
  | map e =>
    obtain ⟨m, rfl, _, _⟩ := typed_map_inv v e htv
    rw [encode_map_eq] at henc
    split at henc
    · injection henc with h1
      subst h1
      exact absurd hS (by simp [nullAV, AV.S])
    · rcases hr : encodeMapEntries nes tagE m with e2 | kept
      · rw [hr] at henc
        cases henc
      · rw [hr] at henc
        injection henc with h1
        subst h1
        split at hS <;> exact absurd hS (by simp [nullAV, AV.ofM, AV.S])
  | struct flds =>
    obtain ⟨fvl, rfl, _⟩ := typed_struct_inv v flds htv
    rw [encode_struct_eq] at henc
    rcases hr : encodeStructFields nes fvl with e2 | entries
    · rw [hr] at henc
      cases henc
    · rw [hr] at henc
      injection henc with h1
      subst h1
      split at hS <;> exact absurd hS (by simp [nullAV, AV.ofM, AV.S])
  | _ => exact absurd hty (by simp [rtTy])

/-- An encoding with `B` populated comes from a non-empty byte slice of
byte-slice type. -/
theorem encode_B_some (nes : Bool) (tagE : Tag) (v : GoVal) (ty : GoTy) (b : List Nat)
    (av : AV) (hty : rtTy ty = true) (htv : typed v ty = true)
    (henc : encode nes tagE v = .ok av)
    (hB : av.B = some b) : ty = .bytes ∧ v = .bytes b := by
  cases ty with
  | int w =>
    obtain ⟨z, rfl, hlo, hhi⟩ := typed_int_inv v w htv
    rw [encode_int] at henc
    injection henc with h1
    subst h1
    split at hB
    · exact absurd hB (by simp [nullAV, AV.B])
    · split at hB <;> exact absurd hB (by simp [AV.ofN, AV.ofS, AV.B])
  | uint w =>
    obtain ⟨n, rfl, hn⟩ := typed_uint_inv v w htv
    rw [encode_uint] at henc
    injection henc with h1
    subst h1
    split at hB
    · exact absurd hB (by simp [nullAV, AV.B])
    · split at hB <;> exact absurd hB (by simp [AV.ofN, AV.ofS, AV.B])
  | bool =>
    obtain ⟨b2, rfl⟩ := typed_bool_inv v htv
    rw [encode_bool_eq] at henc
    injection henc with h1
    subst h1
    split at hB <;> exact absurd hB (by simp [nullAV, AV.ofBOOL, AV.B])
  | str =>
    obtain ⟨s2, rfl⟩ := typed_str_inv v htv
    rw [encode_str] at henc
    injection henc with h1
    subst h1
    split at hB
    · exact absurd hB (by simp [nullAV, AV.B])
    · split at hB <;> exact absurd hB (by simp [nullAV, AV.ofS, AV.B])
  | bytes =>
    obtain ⟨b2, rfl⟩ := typed_bytes_inv v htv
    rw [encode_bytes] at henc
    injection henc with h1
    subst h1
    split at hB
    · exact absurd hB (by simp [nullAV, AV.B])
    · split at hB
      · exact absurd hB (by simp [nullAV, AV.B])
      · simp only [AV.ofB, AV.B] at hB
        injection hB with h2
        subst h2
        exact ⟨rfl, rfl⟩
  | bytesSlices =>
    obtain ⟨l, rfl⟩ := typed_bytesSlices_inv v htv
    rw [encode_bytesSlices_eq] at henc
    split at henc
    · injection henc with h1
      subst h1
      exact absurd hB (by simp [nullAV, AV.B])
    · rcases hr : encodeBSElems tagE l (.bs []) 0 with e2 | p
      · rw [hr] at henc
        cases henc
      · obtain ⟨n, acc⟩ := p
        rw [hr] at henc
        injection henc with h1
        subst h1
        split at hB
        · exact absurd hB (by simp [nullAV, AV.B])
        · exact absurd hB (by simp [(SetAcc_toAV_scalar_fields acc).2.2.1])
  | slice e =>
    obtain ⟨l, rfl, htl⟩ := typed_slice_inv v e htv
    rw [encode_slice_eq] at henc
    split at henc
    · injection henc with h1
      subst h1
      exact absurd hB (by simp [nullAV, AV.B])
    · rcases hr : encodeSetElems nes tagE l (sliceMode tagE) 0 with e2 | p
      · rw [hr] at henc
        cases henc
      · obtain ⟨n, acc⟩ := p
        rw [hr] at henc
        injection henc with h1
        subst h1
        split at hB
        · exact absurd hB (by simp [nullAV, AV.B])
        · exact absurd hB (by simp [(SetAcc_toAV_scalar_fields acc).2.2.1])
  | map e =>
    obtain ⟨m, rfl, _, _⟩ := typed_map_inv v e htv
    rw [encode_map_eq] at henc
    split at henc
    · injection henc with h1
      subst h1
      exact absurd hB (by simp [nullAV, AV.B])
    · rcases hr : encodeMapEntries nes tagE m with e2 | kept
      · rw [hr] at henc
        cases henc
      · rw [hr] at henc
        injection henc with h1
        subst h1
        split at hB <;> exact absurd hB (by simp [nullAV, AV.ofM, AV.B])
  | struct flds =>
    obtain ⟨fvl, rfl, _⟩ := typed_struct_inv v flds htv
    rw [encode_struct_eq] at henc
    rcases hr : encodeStructFields nes fvl with e2 | entries
    · rw [hr] at henc
      cases henc
    · rw [hr] at henc
      injection henc with h1
      subst h1
      split at hB <;> exact absurd hB (by simp [nullAV, AV.ofM, AV.B])
  | _ => exact absurd hty (by simp [rtTy])


/-- Elements kept by a number-set encoding round-trip through the
number-set decoding loop. -/
theorem encodeSetElems_ns_rt (nes : Bool) (tag : Tag) (e : GoTy)
    (hrte : rtTy e = true) (hoee : tag.omitEmptyElem = false) :
    ∀ (l : List GoVal) (acc : List String) (c : Nat) (n : Nat) (out : SetAcc),
      typedList l e = true →
      encodeSetElems nes tag l (.ns acc) c = .ok (n, out) →
      ∃ ss2 : List String, out = .ns (acc ++ ss2) ∧ n = c + l.length ∧
        ss2.length = l.length ∧
        decodeSetLoop (fun s2 c2 => decodeNumber s2 e c2)
          ss2 (List.replicate ss2.length (zero e)) = .ok l := by
  intro l
  induction l with
  | nil =>
    intro acc c n out htl h
    simp only [encodeSetElems] at h
    injection h with h1
    refine ⟨[], ?_, ?_, rfl, rfl⟩
    · rw [List.append_nil]
      exact (congrArg Prod.snd h1).symm
    · have := (congrArg Prod.fst h1).symm
      simpa using this
  | cons v rest ih =>
    intro acc c n out htl h
    have htv : typed v e = true ∧ typedList rest e = true := by
      simpa [typedList, Bool.and_eq_true] using htl
    simp only [encodeSetElems, hoee] at h
    rcases henc : encode nes { omitEmpty := false } v with eE | avE
    · cases eE with
      | invalidMarshal m =>
        simp [henc, keepOrOmitEmpty] at h
      | unsupportedMarshalType =>
        exact absurd rfl (encode_rt_not_unsup nes _ v e htv.1 _ henc)
    · simp only [henc, keepOrOmitEmpty, Bool.and_false, Bool.false_eq_true, if_false] at h
      rcases hNf : avE.N with _ | s2
      · simp [elemFnStep, hNf] at h
      · simp only [elemFnStep, hNf] at h
        obtain ⟨rss, hout, hn, hlen, hloop⟩ := ih (acc ++ [s2]) (c + 1) n out htv.2 h
        refine ⟨s2 :: rss, ?_, ?_, ?_, ?_⟩
        · rw [hout]
          simp
        · simp only [List.length_cons]
          omega
        · simp [hlen]
        · have hdec : decodeNumber s2 e (zero e) = .ok v :=
            encode_N_some nes _ v e s2 avE hrte htv.1 rfl henc hNf
          simp only [List.length_cons, List.replicate_succ, decodeSetLoop,
            withIndirect_nonptr _ _ _ (rtTy_not_ptr e hrte), hdec, hloop]


/-- Elements kept by a string-set encoding round-trip through the
string-set decoding loop. -/
theorem encodeSetElems_ss_rt (nes : Bool) (tag : Tag) (e : GoTy)
    (hrte : rtTy e = true) (hoee : tag.omitEmptyElem = false) :
    ∀ (l : List GoVal) (acc : List String) (c : Nat) (n : Nat) (out : SetAcc),
      typedList l e = true →
      encodeSetElems nes tag l (.ss acc) c = .ok (n, out) →
      ∃ ss2 : List String, out = .ss (acc ++ ss2) ∧ n = c + l.length ∧
        ss2.length = l.length ∧
        decodeSetLoop (fun s2 c2 => decodeString s2 e Tag.none c2)
          ss2 (List.replicate ss2.length (zero e)) = .ok l := by
  intro l
  induction l with
  | nil =>
    intro acc c n out htl h
    simp only [encodeSetElems] at h
    injection h with h1
    refine ⟨[], ?_, ?_, rfl, rfl⟩
    · rw [List.append_nil]
      exact (congrArg Prod.snd h1).symm
    · have := (congrArg Prod.fst h1).symm
      simpa using this
  | cons v rest ih =>
    intro acc c n out htl h
    have htv : typed v e = true ∧ typedList rest e = true := by
      simpa [typedList, Bool.and_eq_true] using htl
    simp only [encodeSetElems, hoee] at h
    rcases henc : encode nes { omitEmpty := false } v with eE | avE
    · cases eE with
      | invalidMarshal m =>
        simp [henc, keepOrOmitEmpty] at h
      | unsupportedMarshalType =>
        exact absurd rfl (encode_rt_not_unsup nes _ v e htv.1 _ henc)
    · simp only [henc, keepOrOmitEmpty, Bool.and_false, Bool.false_eq_true, if_false] at h
      rcases hSf : avE.S with _ | s2
      · simp [elemFnStep, hSf] at h
      · simp only [elemFnStep, hSf] at h
        obtain ⟨he, hv⟩ := encode_S_some nes _ v e s2 avE hrte htv.1 rfl henc hSf
        subst he
        subst hv
        obtain ⟨rss, hout, hn, hlen, hloop⟩ := ih (acc ++ [s2]) (c + 1) n out htv.2 h
        refine ⟨s2 :: rss, ?_, ?_, ?_, ?_⟩
        · rw [hout]
          simp
        · simp only [List.length_cons]
          omega
        · simp [hlen]
        · have hd : decodeString s2 .str Tag.none (zero .str) = .ok (.str s2) := by
            simp [decodeString, Tag.none]
          simp only [List.length_cons, List.replicate_succ, decodeSetLoop, hd, hloop]

/-- Elements kept by a binary-set encoding of a generic slice
round-trip through the binary-set decoding loop. -/
theorem encodeSetElems_bs_rt (nes : Bool) (tag : Tag) (e : GoTy)
    (hrte : rtTy e = true) (hoee : tag.omitEmptyElem = false) :
    ∀ (l : List GoVal) (acc : List (List Nat)) (c : Nat) (n : Nat) (out : SetAcc),
      typedList l e = true →
      encodeSetElems nes tag l (.bs acc) c = .ok (n, out) →
      ∃ bs2 : List (List Nat), out = .bs (acc ++ bs2) ∧ n = c + l.length ∧
        bs2.length = l.length ∧
        decodeSetLoop (fun b2 c2 => decodeBinary b2 e c2)
          bs2 (List.replicate bs2.length (zero e)) = .ok l := by
  intro l
  induction l with
  | nil =>
    intro acc c n out htl h
    simp only [encodeSetElems] at h
    injection h with h1
    refine ⟨[], ?_, ?_, rfl, rfl⟩
    · rw [List.append_nil]
      exact (congrArg Prod.snd h1).symm
    · have := (congrArg Prod.fst h1).symm
      simpa using this
  | cons v rest ih =>
    intro acc c n out htl h
    have htv : typed v e = true ∧ typedList rest e = true := by
      simpa [typedList, Bool.and_eq_true] using htl
    simp only [encodeSetElems, hoee] at h
    rcases henc : encode nes { omitEmpty := false } v with eE | avE
    · cases eE with
      | invalidMarshal m =>
        simp [henc, keepOrOmitEmpty] at h
      | unsupportedMarshalType =>
        exact absurd rfl (encode_rt_not_unsup nes _ v e htv.1 _ henc)
    · simp only [henc, keepOrOmitEmpty, Bool.and_false, Bool.false_eq_true, if_false] at h
      rcases hBf : avE.B with _ | b2
      · simp [elemFnStep, hBf] at h
      · simp only [elemFnStep, hBf] at h
        obtain ⟨he, hv⟩ := encode_B_some nes _ v e b2 avE hrte htv.1 henc hBf
        subst he
        subst hv
        obtain ⟨rbs, hout, hn, hlen, hloop⟩ := ih (acc ++ [b2]) (c + 1) n out htv.2 h
        refine ⟨b2 :: rbs, ?_, ?_, ?_, ?_⟩
        · rw [hout]
          simp
        · simp only [List.length_cons]
          omega
        · simp [hlen]
        · have hd : decodeBinary b2 .bytes (zero .bytes) = .ok (.bytes b2) := rfl
          simp only [List.length_cons, List.replicate_succ, decodeSetLoop, hd, hloop]

/-- Elements kept by a generic-list encoding round-trip through the
list decoding loop (the per-element round trip is a hypothesis,
discharged by the main induction). -/
theorem encodeSetElems_lst_rt (nes : Bool) (tag : Tag) (e : GoTy)
    (hoee : tag.omitEmptyElem = false) :
    ∀ (l : List GoVal) (acc : List (Option AV)) (c : Nat) (n : Nat) (out : SetAcc),
      typedList l e = true →
      (∀ v2 ∈ l, ∀ av2, encode nes { omitEmpty := false } v2 = .ok av2 →
        decodeD (some av2) e (zero e) Tag.none = .ok v2) →
      encodeSetElems nes tag l (.lst acc) c = .ok (n, out) →
      ∃ avs : List AV, out = .lst (acc ++ avs.map some) ∧ n = c + l.length ∧
        avs.length = l.length ∧
        decodeListElems (avs.map some) e (List.replicate avs.length (zero e)) = .ok l := by
  intro l
  induction l with
  | nil =>
    intro acc c n out htl hIH h
    simp only [encodeSetElems] at h
    injection h with h1
    refine ⟨[], ?_, ?_, rfl, by simp [decodeListElems]⟩
    · rw [List.map_nil, List.append_nil]
      exact (congrArg Prod.snd h1).symm
    · have := (congrArg Prod.fst h1).symm
      simpa using this
  | cons v rest ih =>
    intro acc c n out htl hIH h
    have htv : typed v e = true ∧ typedList rest e = true := by
      simpa [typedList, Bool.and_eq_true] using htl
    simp only [encodeSetElems, hoee] at h
    rcases henc : encode nes { omitEmpty := false } v with eE | avE
    · cases eE with
      | invalidMarshal m =>
        simp [henc, keepOrOmitEmpty] at h
      | unsupportedMarshalType =>
        exact absurd rfl (encode_rt_not_unsup nes _ v e htv.1 _ henc)
    · simp only [henc, keepOrOmitEmpty, Bool.and_false, Bool.false_eq_true, if_false,
        elemFnStep] at h
      obtain ⟨ravs, hout, hn, hlen, hloop⟩ := ih (acc ++ [some avE]) (c + 1) n out htv.2
        (fun v2 hv2 => hIH v2 (List.mem_cons_of_mem v hv2)) h
      refine ⟨avE :: ravs, ?_, ?_, ?_, ?_⟩
      · rw [hout]
        simp
      · simp only [List.length_cons]
        omega
      · simp [hlen]
      · have hdec : decodeD (some avE) e (zero e) Tag.none = .ok v :=
          hIH v (List.mem_cons_self v rest) avE henc
        simp only [List.length_cons, List.replicate_succ, List.map_cons,
          decodeListElems, hdec, hloop]


/-- Without `omitemptyelem`, a successful `[][]byte` encoding implies
all elements are non-empty, and the accumulator collects them in order. -/
theorem encodeBSElems_rt (tag : Tag) (hoee : tag.omitEmptyElem = false) :
    ∀ (l : List (List Nat)) (acc : List (List Nat)) (c : Nat) (n : Nat) (out : SetAcc),
      encodeBSElems tag l (.bs acc) c = .ok (n, out) →
      (∀ b ∈ l, b ≠ []) ∧ out = .bs (acc ++ l) ∧ n = c + l.length := by
  intro l
  induction l with
  | nil =>
    intro acc c n out h
    simp only [encodeBSElems] at h
    injection h with h1
    refine ⟨by simp, ?_, ?_⟩
    · rw [List.append_nil]
      exact (congrArg Prod.snd h1).symm
    · have := (congrArg Prod.fst h1).symm
      simpa using this
  | cons b rest ih =>
    intro acc c n out h
    simp only [encodeBSElems, hoee, encodeBytesElem, Bool.false_and, Bool.false_eq_true,
      if_false, keepOrOmitEmpty] at h
    by_cases hbe : b.isEmpty = true
    · simp [hbe, nullAV, AV.NULL, AV.B, elemFnStep] at h
    · simp only [hbe, Bool.false_eq_true, if_false, AV.ofB, AV.NULL, Option.isSome_none,
        Bool.false_and, elemFnStep, AV.B] at h
      obtain ⟨hne, hout, hn⟩ := ih (acc ++ [b]) (c + 1) n out h
      refine ⟨?_, ?_, ?_⟩
      · intro b2 hb2
        rcases List.mem_cons.mp hb2 with rfl | hb2
        · simpa [List.isEmpty_iff] using hbe
        · exact hne b2 hb2
      · rw [hout]
        simp
      · simp only [List.length_cons]
        omega

/-- The binary-set decoding loop restores the byte slices. -/
theorem decodeSetLoop_binary (l : List (List Nat)) :
    ∀ base : List GoVal, l.length ≤ base.length →
      decodeSetLoop (fun b c => decodeBinary b .bytes c) l base = .ok (l.map .bytes) := by
  induction l with
  | nil => intro base hlen; cases base <;> simp [decodeSetLoop]
  | cons b rest ih =>
    intro base hlen
    cases base with
    | nil => simp at hlen
    | cons c0 base2 =>
      have h2 : rest.length ≤ base2.length := by simpa using hlen
      have hd : decodeBinary b .bytes c0 = .ok (.bytes b) := rfl
      simp only [decodeSetLoop, hd, ih base2 h2, List.map_cons]

/-- Inserting a fresh key appends. -/
theorem mapSet_fresh (acc : List (String × GoVal)) (k : String) (v : GoVal)
    (h : k ∉ acc.map Prod.fst) : mapSet acc k v = acc ++ [(k, v)] := by
  induction acc with
  | nil => rfl
  | cons p rest ih =>
    obtain ⟨k2, v2⟩ := p
    have hk2 : k2 ≠ k := by
      intro hcontra
      exact h (by simp [hcontra])
    have hrest : k ∉ rest.map Prod.fst := by
      intro hcontra
      exact h (by simp [hcontra])
    simp [mapSet, hk2, ih hrest]

/-- Map entries kept by a map encoding round-trip through the map-entry
decoding loop, appending to any accumulator free of the map's keys. -/
theorem encodeMapEntries_rt (nes : Bool) (tag : Tag) (e : GoTy)
    (hoee : tag.omitEmptyElem = false) :
    ∀ (m : List (String × GoVal)),
      typedEntries m e = true → (m.map Prod.fst).Nodup →
      (∀ p ∈ m, ∀ av2, encode nes Tag.none p.2 = .ok av2 →
        decodeD (some av2) e (zero e) Tag.none = .ok p.2) →
      ∀ wires, encodeMapEntries nes tag m = .ok wires →
      wires.length = m.length ∧
      ∀ acc : List (String × GoVal), (∀ k ∈ m.map Prod.fst, k ∉ acc.map Prod.fst) →
        decodeMapEntriesD wires e acc = .ok (acc ++ m) := by
  intro m
  induction m with
  | nil =>
    intro hte hnd hIH wires h
    simp only [encodeMapEntries] at h
    injection h with h1
    subst h1
    exact ⟨rfl, fun acc hacc => by simp [decodeMapEntriesD]⟩
  | cons p rest ih =>
    intro hte hnd hIH wires h
    obtain ⟨k, v⟩ := p
    have htv : typed v e = true ∧ typedEntries rest e = true := by
      simpa [typedEntries, Bool.and_eq_true] using hte
    have hnd2 : (rest.map Prod.fst).Nodup := (List.nodup_cons.mp (by simpa using hnd)).2
    have hkfresh : k ∉ rest.map Prod.fst := (List.nodup_cons.mp (by simpa using hnd)).1
    simp only [encodeMapEntries, hoee] at h
    by_cases hk : k = ""
    · rw [if_pos hk] at h
      cases h
    · rw [if_neg hk] at h
      rcases henc : encode nes Tag.none v with eE | avE
      · cases eE with
        | invalidMarshal m2 =>
          simp [henc, keepOrOmitEmpty] at h
        | unsupportedMarshalType =>
          exact absurd rfl (encode_rt_not_unsup nes _ v e htv.1 _ henc)
      · simp only [henc, keepOrOmitEmpty, Bool.and_false, Bool.false_eq_true, if_false] at h
        rcases hr : encodeMapEntries nes tag rest with e2 | wires2
        · rw [hr] at h
          cases h
        · rw [hr] at h
          injection h with h1
          subst h1
          obtain ⟨hlen, hdec⟩ := ih htv.2 hnd2
            (fun p2 hp2 => hIH p2 (List.mem_cons_of_mem _ hp2)) wires2 hr
          refine ⟨by simp [hlen], ?_⟩
          intro acc hacc
          have hdecv : decodeD (some avE) e (zero e) Tag.none = .ok v :=
            hIH (k, v) (List.mem_cons_self _ _) avE henc
          simp only [decodeMapEntriesD, hdecv]
          have hkacc : k ∉ acc.map Prod.fst := hacc k (by simp)
          rw [mapSet_fresh acc k v hkacc]
          have hacc2 : ∀ k2 ∈ rest.map Prod.fst, k2 ∉ (acc ++ [(k, v)]).map Prod.fst := by
            intro k2 hk2
            simp only [List.map_append, List.mem_append]
            rintro (hin | hin)
            · exact hacc k2 (by simp [hk2]) hin
            · have : k2 = k := by simpa using hin
              exact hkfresh (this ▸ hk2)
          rw [hdec (acc ++ [(k, v)]) hacc2]
          simp


/-- A struct value's field names and tags coincide with its type's. -/
theorem typedFields_names (fvl : List (String × Tag × GoVal)) :
    ∀ (flds : List (String × Tag × GoTy)), typedFields fvl flds = true →
      fvl.map Prod.fst = flds.map Prod.fst ∧ fvl.length = flds.length := by
  induction fvl with
  | nil =>
    intro flds h
    cases flds with
    | nil => exact ⟨rfl, rfl⟩
    | cons f rest => simp [typedFields] at h
  | cons f rest ih =>
    intro flds h
    cases flds with
    | nil =>
      obtain ⟨n, t, v⟩ := f
      simp [typedFields] at h
    | cons f2 rest2 =>
      obtain ⟨n, t, v⟩ := f
      obtain ⟨n2, t2, ty⟩ := f2
      have h2 : n = n2 ∧ t = t2 ∧ typed v ty = true ∧ typedFields rest rest2 = true := by
        simpa [typedFields, Bool.and_eq_true, beq_iff_eq, and_assoc] using h
      obtain ⟨heq, hmap⟩ := ih rest2 h2.2.2.2
      exact ⟨by simp [h2.1, heq], by simp [hmap]⟩

/-- Wire keys produced by `encodeStruct` are field names. -/
theorem encodeStructFields_keys (nes : Bool) :
    ∀ (fvl : List (String × Tag × GoVal)) (entries : List (String × Option AV)),
      encodeStructFields nes fvl = .ok entries →
      ∀ p ∈ entries, p.1 ∈ fvl.map Prod.fst := by
  intro fvl
  induction fvl with
  | nil =>
    intro entries h p hp
    simp only [encodeStructFields] at h
    injection h with h1
    subst h1
    simp at hp
  | cons f rest ih =>
    intro entries h p hp
    obtain ⟨name, ftag, fv⟩ := f
    simp only [encodeStructFields] at h
    by_cases hn : name = ""
    · rw [if_pos hn] at h
      cases h
    · rw [if_neg hn] at h
      rcases hk : keepOrOmitEmpty ftag.omitEmpty (encode nes ftag fv) with e2 | oav
      · simp only [hk] at h
        cases h
      · cases oav with
        | none =>
          simp only [hk] at h
          have := ih entries h p hp
          simp only [List.map_cons, List.mem_cons]
          exact Or.inr this
        | some elem =>
          simp only [hk] at h
          rcases hr : encodeStructFields nes rest with e2 | entries2
          · simp only [hr] at h
            cases h
          · simp only [hr] at h
            injection h with h1
            subst h1
            rcases List.mem_cons.mp hp with rfl | hp2
            · simp
            · have := ih entries2 hr p hp2
              simp only [List.map_cons, List.mem_cons]
              exact Or.inr this

/-- Decoding wire entries that do not name the head field passes over
it. -/
theorem decodeStructEntriesD_shift (hdname : String) (hdt : Tag) (hdty : GoTy) :
    ∀ (entries : List (String × Option AV)),
      (∀ p ∈ entries, p.1 ≠ hdname) →
      ∀ (flds2 : List (String × Tag × GoTy)) (v0 : GoVal) (vals : List GoVal),
      decodeStructEntriesD entries ((hdname, hdt, hdty) :: flds2) (v0 :: vals)
        = match decodeStructEntriesD entries flds2 vals with
          | .ok vs => .ok (v0 :: vs)
          | .err e => .err e
          | .panicked => .panicked := by
  intro entries
  induction entries with
  | nil => intro hne flds2 v0 vals; simp [decodeStructEntriesD]
  | cons p rest ih =>
    intro hne flds2 v0 vals
    obtain ⟨k, av⟩ := p
    have hk : k ≠ hdname := hne (k, av) (List.mem_cons_self _ _)
    have hrest : ∀ p2 ∈ rest, p2.1 ≠ hdname :=
      fun p2 hp2 => hne p2 (List.mem_cons_of_mem _ hp2)
    have hcond : ¬(hdname = k) := fun hcontra => hk hcontra.symm
    simp only [decodeStructEntriesD, fieldIdx, if_neg hcond]
    rcases hidx : fieldIdx flds2 k with _ | idxv
    · simp only [hidx]
      exact ih hrest flds2 v0 vals
    · obtain ⟨i, t2, ty2⟩ := idxv
      have hgetD : (v0 :: vals).getD (i + 1) (zero ty2) = vals.getD i (zero ty2) := by
        simp [List.getD]
      simp only [hidx, hgetD]
      rcases hd : decodeD av ty2 (vals.getD i (zero ty2)) t2 with v2 | e2
      · have hset : (v0 :: vals).set (i + 1) v2 = v0 :: vals.set i v2 := rfl
        simp only [hd, hset]
        exact ih hrest flds2 v0 (vals.set i v2)
      · simp only [hd]
      · simp only [hd]

/-- The empty `tag{}` is admissible on every round-trip type. -/
theorem rtTag_none (ty : GoTy) : rtTag Tag.none ty = true := by
  simp [rtTag, Tag.none]

/-- Preparing a nil slice exposes fresh zero elements. -/
theorem sliceBase_nil (ety : GoTy) (n : Nat) :
    sliceBase ety [] n = List.replicate n (zero ety) := by
  cases n <;> simp [sliceBase]

/-- Shape of the zero struct fields. -/
theorem zeroFields_spec (flds : List (String × Tag × GoTy)) :
    (zeroFields flds).length = flds.length ∧
      (zeroFields flds).map (fun f => f.2.2) = flds.map (fun f => zero f.2.2) := by
  induction flds with
  | nil => simp [zeroFields]
  | cons f rest ih =>
    obtain ⟨n, t, ty⟩ := f
    simp only [zeroFields, List.length_cons, List.map_cons]
    exact ⟨by simp [ih.1], by simp [ih.2]⟩

/-- The field values exposed by a zero struct location. -/
theorem structVals_zero (flds : List (String × Tag × GoTy)) :
    structVals flds (zero (.struct flds)) = flds.map (fun f => zero f.2.2) := by
  have hz : zero (.struct flds) = .struct (zeroFields flds) := by simp [zero]
  rw [hz]
  simp [structVals, (zeroFields_spec flds).1, (zeroFields_spec flds).2]

/-- Elements of a typed list are typed. -/
theorem typedList_mem (e : GoTy) :
    ∀ (l : List GoVal), typedList l e = true → ∀ v ∈ l, typed v e = true := by
  intro l
  induction l with
  | nil => intro h v hv; simp at hv
  | cons v0 rest ih =>
    intro h v hv
    have h2 : typed v0 e = true ∧ typedList rest e = true := by
      simpa [typedList, Bool.and_eq_true] using h
    rcases List.mem_cons.mp hv with rfl | hv2
    · exact h2.1
    · exact ih h2.2 v hv2

/-- Values of typed map entries are typed. -/
theorem typedEntries_mem (e : GoTy) :
    ∀ (m : List (String × GoVal)), typedEntries m e = true →
      ∀ p ∈ m, typed p.2 e = true := by
  intro m
  induction m with
  | nil => intro h p hp; simp at hp
  | cons p0 rest ih =>
    intro h p hp
    obtain ⟨k, v⟩ := p0
    have h2 : typed v e = true ∧ typedEntries rest e = true := by
      simpa [typedEntries, Bool.and_eq_true] using h
    rcases List.mem_cons.mp hp with rfl | hp2
    · exact h2.1
    · exact ih h2.2 p hp2

/-- Each descriptor of a well-formed field list is well-formed. -/
theorem rtFields_mem :
    ∀ (flds : List (String × Tag × GoTy)), rtFields flds = true →
      ∀ f ∈ flds, f.1 ≠ "" ∧ rtTag f.2.1 f.2.2 = true ∧ rtTy f.2.2 = true := by
  intro flds
  induction flds with
  | nil => intro h f hf; simp at hf
  | cons f0 rest ih =>
    intro h f hf
    obtain ⟨n, t, ty⟩ := f0
    have h2 : (n ≠ "" ∧ rtTag t ty = true ∧ rtTy ty = true) ∧ rtFields rest = true := by
      simpa [rtFields, Bool.and_eq_true, and_assoc] using h
    rcases List.mem_cons.mp hf with rfl | hf2
    · exact h2.1
    · exact ih h2.2 f hf2

/-- Pairs of a typed struct value's field list with its type's
descriptor list share name and options, with the value typed at the
field type. -/
theorem typedFields_zipMem :
    ∀ (fvl : List (String × Tag × GoVal)) (flds : List (String × Tag × GoTy)),
      typedFields fvl flds = true →
      ∀ q ∈ fvl.zip flds, q.1.1 = q.2.1 ∧ q.1.2.1 = q.2.2.1 ∧
        typed q.1.2.2 q.2.2.2 = true := by
  intro fvl
  induction fvl with
  | nil => intro flds h q hq; simp at hq
  | cons f rest ih =>
    intro flds h q hq
    cases flds with
    | nil => simp at hq
    | cons f2 rest2 =>
      obtain ⟨n, t, v⟩ := f
      obtain ⟨n2, t2, ty⟩ := f2
      have h2 : n = n2 ∧ t = t2 ∧ typed v ty = true ∧ typedFields rest rest2 = true := by
        simpa [typedFields, Bool.and_eq_true, beq_iff_eq, and_assoc] using h
      rcases List.mem_cons.mp hq with rfl | hq2
      · exact ⟨h2.1, h2.2.1, h2.2.2.1⟩
      · exact ih rest2 h2.2.2.2 q hq2

/-- Reassembling a typed struct value from its type's descriptors and
its field values. -/
theorem typedFields_zip :
    ∀ (fvl : List (String × Tag × GoVal)) (flds : List (String × Tag × GoTy)),
      typedFields fvl flds = true →
      flds.zipWith (fun f v => (f.1, f.2.1, v)) (fvl.map fun f => f.2.2) = fvl := by
  intro fvl
  induction fvl with
  | nil =>
    intro flds h
    cases flds with
    | nil => rfl
    | cons f2 rest2 => simp [typedFields] at h
  | cons f rest ih =>
    intro flds h
    cases flds with
    | nil =>
      obtain ⟨n, t, v⟩ := f
      simp [typedFields] at h
    | cons f2 rest2 =>
      obtain ⟨n, t, v⟩ := f
      obtain ⟨n2, t2, ty⟩ := f2
      have h2 : n = n2 ∧ t = t2 ∧ typed v ty = true ∧ typedFields rest rest2 = true := by
        simpa [typedFields, Bool.and_eq_true, beq_iff_eq, and_assoc] using h
      simp only [List.map_cons, List.zipWith_cons_cons, ih rest2 h2.2.2.2]
      rw [h2.1, h2.2.1]

/-- A typed struct value whose field values are all zero is the zero
struct value. -/
theorem typedFields_zero :
    ∀ (fvl : List (String × Tag × GoVal)) (flds : List (String × Tag × GoTy)),
      typedFields fvl flds = true →
      (fvl.map fun f => f.2.2) = flds.map (fun f => zero f.2.2) →
      fvl = zeroFields flds := by
  intro fvl
  induction fvl with
  | nil =>
    intro flds h hz
    cases flds with
    | nil => simp [zeroFields]
    | cons f2 rest2 => simp [typedFields] at h
  | cons f rest ih =>
    intro flds h hz
    cases flds with
    | nil =>
      obtain ⟨n, t, v⟩ := f
      simp [typedFields] at h
    | cons f2 rest2 =>
      obtain ⟨n, t, v⟩ := f
      obtain ⟨n2, t2, ty⟩ := f2
      have h2 : n = n2 ∧ t = t2 ∧ typed v ty = true ∧ typedFields rest rest2 = true := by
        simpa [typedFields, Bool.and_eq_true, beq_iff_eq, and_assoc] using h
      have hz2 : v = zero ty ∧ (rest.map fun f => f.2.2) = rest2.map (fun f => zero f.2.2) := by
        simpa using hz
      simp only [zeroFields]
      rw [h2.1, h2.2.1, hz2.1, ih rest2 h2.2.2.2 hz2.2]

/-- Slice elements are smaller than the slice value. -/
theorem sizeOf_mem_slice (l : List GoVal) (v : GoVal) (h : v ∈ l) :
    sizeOf v < sizeOf (GoVal.slice l) := by
  have h1 := List.sizeOf_lt_of_mem h
  have h2 : sizeOf (GoVal.slice l) = 1 + sizeOf l := by simp
  omega

/-- Map entry values are smaller than the map value. -/
theorem sizeOf_mem_map (m : List (String × GoVal)) (p : String × GoVal) (h : p ∈ m) :
    sizeOf p.2 < sizeOf (GoVal.map m) := by
  have h1 := List.sizeOf_lt_of_mem h
  obtain ⟨k, v⟩ := p
  have h2 : sizeOf (GoVal.map m) = 1 + sizeOf m := by simp
  have h3 : sizeOf (k, v) = 1 + sizeOf k + sizeOf v := by simp
  simp only [] at h1 ⊢
  omega

/-- Struct field values are smaller than the struct value. -/
theorem sizeOf_mem_struct (fvl : List (String × Tag × GoVal))
    (p : String × Tag × GoVal) (h : p ∈ fvl) :
    sizeOf p.2.2 < sizeOf (GoVal.struct fvl) := by
  have h1 := List.sizeOf_lt_of_mem h
  obtain ⟨n, t, v⟩ := p
  have h2 : sizeOf (GoVal.struct fvl) = 1 + sizeOf fvl := by simp
  have h3 : sizeOf (n, t, v) = 1 + sizeOf n + (1 + sizeOf t + sizeOf v) := by simp
  simp only [] at h1 ⊢
  omega

/-- Entries kept by a struct encoding decode back into the struct's
field values, starting from the zero fields (the per-field round-trip
and null-implies-zero facts are hypotheses, discharged by the main
induction; a field skipped by omit-if-empty stays at its zero value,
which the null-implies-zero fact identifies with the original). -/
theorem encodeStructFields_rt (nes : Bool) :
    ∀ (fvl : List (String × Tag × GoVal)) (flds : List (String × Tag × GoTy)),
      typedFields fvl flds = true →
      rtFields flds = true →
      (flds.map Prod.fst).Nodup →
      (∀ q ∈ fvl.zip flds, ∀ av2,
        encode nes q.2.2.1 q.1.2.2 = .ok av2 →
        decodeD (some av2) q.2.2.2 (zero q.2.2.2) q.2.2.1 = .ok q.1.2.2 ∧
          (av2.NULL.isSome = true → q.1.2.2 = zero q.2.2.2)) →
      ∀ entries, encodeStructFields nes fvl = .ok entries →
        decodeStructEntriesD entries flds (flds.map fun f => zero f.2.2)
          = .ok (fvl.map fun f => f.2.2) := by
  intro fvl
  induction fvl with
  | nil =>
    intro flds htf hrf hnd hIH entries h
    cases flds with
    | nil =>
      simp only [encodeStructFields] at h
      injection h with h1
      subst h1
      simp [decodeStructEntriesD]
    | cons f2 rest2 => simp [typedFields] at htf
  | cons f rest ih =>
    intro flds htf hrf hnd hIH entries h
    cases flds with
    | nil =>
      obtain ⟨n, t, v⟩ := f
      simp [typedFields] at htf
    | cons f2 rest2 =>
      obtain ⟨n, t, v⟩ := f
      obtain ⟨n2, t2, ty⟩ := f2
      have h2 : n = n2 ∧ t = t2 ∧ typed v ty = true ∧ typedFields rest rest2 = true := by
        simpa [typedFields, Bool.and_eq_true, beq_iff_eq, and_assoc] using htf
      obtain ⟨hn2, ht2, htv, htr⟩ := h2
      subst hn2
      subst ht2
      have hrf2 : (n ≠ "" ∧ rtTag t ty = true ∧ rtTy ty = true) ∧ rtFields rest2 = true := by
        simpa [rtFields, Bool.and_eq_true, and_assoc] using hrf
      rw [List.map_cons] at hnd
      have hnd1 := List.nodup_cons.mp hnd
      have hnfresh : n ∉ rest2.map Prod.fst := hnd1.1
      have hnd2 : (rest2.map Prod.fst).Nodup := hnd1.2
      have hnames : rest.map Prod.fst = rest2.map Prod.fst := (typedFields_names rest rest2 htr).1
      have hIHhead : ∀ av2, encode nes t v = .ok av2 →
          decodeD (some av2) ty (zero ty) t = .ok v ∧
            (av2.NULL.isSome = true → v = zero ty) := by
        intro av2 henc2
        exact hIH ((n, t, v), (n, t, ty))
          (by rw [List.zip_cons_cons]; exact List.mem_cons_self _ _) av2 henc2
      have hIHrest : ∀ q ∈ rest.zip rest2, ∀ av2,
          encode nes q.2.2.1 q.1.2.2 = .ok av2 →
          decodeD (some av2) q.2.2.2 (zero q.2.2.2) q.2.2.1 = .ok q.1.2.2 ∧
            (av2.NULL.isSome = true → q.1.2.2 = zero q.2.2.2) := by
        intro q hq2
        exact hIH q (by rw [List.zip_cons_cons]; exact List.mem_cons_of_mem _ hq2)
      simp only [encodeStructFields] at h
      rw [if_neg hrf2.1.1] at h
      rcases hk : keepOrOmitEmpty t.omitEmpty (encode nes t v) with e2 | oav
      · simp only [hk] at h
        cases h
      · cases oav with
        | none =>
          simp only [hk] at h
          rcases keepOrOmitEmpty_ok_none _ _ hk with hunsup | ⟨av0, henc0, hcond⟩
          · exact absurd rfl (encode_rt_not_unsup nes t v ty htv _ hunsup)
          · have hznull : av0.NULL.isSome = true := ((Bool.and_eq_true _ _).mp hcond).1
            have hvz : v = zero ty := (hIHhead av0 henc0).2 hznull
            have hne : ∀ p ∈ entries, p.1 ≠ n := by
              intro p hp hcontra
              have hmem := encodeStructFields_keys nes rest entries h p hp
              rw [hnames, hcontra] at hmem
              exact hnfresh hmem
            simp only [List.map_cons]
            rw [decodeStructEntriesD_shift n t ty entries hne rest2 (zero ty)
              (rest2.map fun f => zero f.2.2)]
            rw [ih rest2 htr hrf2.2 hnd2 hIHrest entries h, hvz]
        | some elem =>
          simp only [hk] at h
          rcases hr : encodeStructFields nes rest with e2 | entries2
          · simp only [hr] at h
            cases h
          · simp only [hr] at h
            injection h with h1
            subst h1
            have henc : encode nes t v = .ok elem := keepOrOmitEmpty_ok_some _ _ _ hk
            have hdec : decodeD (some elem) ty (zero ty) t = .ok v := (hIHhead elem henc).1
            have hfi : fieldIdx ((n, t, ty) :: rest2) n = some (0, t, ty) := by
              simp [fieldIdx]
            simp only [List.map_cons, decodeStructEntriesD, hfi, List.getD_cons_zero,
              hdec, List.set_cons_zero]
            have hne : ∀ p ∈ entries2, p.1 ≠ n := by
              intro p hp hcontra
              have hmem := encodeStructFields_keys nes rest entries2 hr p hp
              rw [hnames, hcontra] at hmem
              exact hnfresh hmem
            rw [decodeStructEntriesD_shift n t ty entries2 hne rest2 v
              (rest2.map fun f => zero f.2.2)]
            rw [ih rest2 htr hrf2.2 hnd2 hIHrest entries2 hr]

/-- Rebuilding a `[][]byte` value from decoded `.bytes` elements. -/
theorem rebuildSlice_bytesSlices : ∀ (l : List (List Nat)),
    rebuildSlice .bytesSlices (l.map GoVal.bytes) = .bytesSlices l
  | [] => rfl
  | b :: rest => by
    have ih := rebuildSlice_bytesSlices rest
    injection ih with h
    exact congrArg (fun x => GoVal.bytesSlices (b :: x)) h

/-- Round trip at the `[][]byte` type (the binary-set interpretation is
forced by the element type; an all-zero value encodes as null and is
restored by the null path). -/
theorem rt_bytesSlices (nes : Bool) (tag : Tag) (l : List (List Nat)) (av : AV)
    (hoee : tag.omitEmptyElem = false)
    (henc : encode nes tag (.bytesSlices l) = .ok av) :
    decodeD (some av) .bytesSlices (zero .bytesSlices) tag = .ok (.bytesSlices l) ∧
      (av.NULL.isSome = true → GoVal.bytesSlices l = zero .bytesSlices) := by
  rw [encode_bytesSlices_eq] at henc
  by_cases hc : (tag.omitEmpty && l.isEmpty) = true
  · rw [if_pos hc] at henc
    injection henc with h1
    subst h1
    have hl : l = [] := by
      simpa [List.isEmpty_iff] using ((Bool.and_eq_true _ _).mp hc).2
    subst hl
    refine ⟨?_, fun _ => by simp [zero]⟩
    rw [decodeD_nullAV, decodeNullInto_rt _ _ (by simp [rtTy])]
    simp [zero]
  · rw [if_neg hc] at henc
    rcases hr : encodeBSElems tag l (.bs []) 0 with e2 | p
    · simp only [hr] at henc
      cases henc
    · obtain ⟨nn, acc⟩ := p
      simp only [hr] at henc
      injection henc with h1
      obtain ⟨hne, hout, hn⟩ := encodeBSElems_rt tag hoee l [] 0 nn acc hr
      simp only [List.nil_append] at hout
      subst hout
      by_cases hl : l = []
      · subst hl
        have hnn : nn = 0 := by simpa using hn
        subst hnn
        rw [if_pos rfl] at h1
        subst h1
        refine ⟨?_, fun _ => by simp [zero]⟩
        rw [decodeD_nullAV, decodeNullInto_rt _ _ (by simp [rtTy])]
        simp [zero]
      · have hlen : l.length ≠ 0 := fun h0 => hl (List.length_eq_zero.mp h0)
        have hnn : nn ≠ 0 := by omega
        rw [if_neg hnn] at h1
        subst h1
        have htoav : (SetAcc.bs l).toAV = AV.ofBS l := rfl
        refine ⟨?_, ?_⟩
        · rw [htoav, decodeD_ofBS _ _ _ _ (by simp [GoTy.isPtr]) hl]
          have hfun : (fun (b : List Nat) (c : GoVal) =>
              withIndirect (fun t c2 => decodeBinary b t c2) .bytes c)
              = fun b c => decodeBinary b .bytes c := by
            funext b c
            exact withIndirect_nonptr _ _ _ (by simp [GoTy.isPtr])
          have hbase : sliceBase .bytes (sliceElems (zero .bytesSlices)) l.length
              = List.replicate l.length (zero .bytes) := by
            simp [sliceElems, zero, sliceBase_nil]
          have hloop := decodeSetLoop_binary l
            (List.replicate l.length (zero .bytes)) (by simp)
          simp only [decodeBinarySet, elemTyOfSliceKind, hbase, hfun, hloop,
            rebuildSlice_bytesSlices]
        · intro hnull
          rw [htoav] at hnull
          simp [AV.ofBS, AV.NULL] at hnull

/-- Round trip at a generic slice type, for each of the four collection
interpretations chosen by the field options (the per-element round trip
for the generic-list mode is a hypothesis, discharged by the main
induction). -/
theorem rt_slice (nes : Bool) (tag : Tag) (e : GoTy) (l : List GoVal) (av : AV)
    (hrte : rtTy e = true) (hoee : tag.omitEmptyElem = false)
    (htl : typedList l e = true)
    (hIH : ∀ v2 ∈ l, ∀ av2, encode nes { omitEmpty := false } v2 = .ok av2 →
      decodeD (some av2) e (zero e) Tag.none = .ok v2)
    (henc : encode nes tag (.slice l) = .ok av) :
    decodeD (some av) (.slice e) (zero (.slice e)) tag = .ok (.slice l) ∧
      (av.NULL.isSome = true → GoVal.slice l = zero (.slice e)) := by
  have hz : zero (.slice e) = .slice [] := by simp [zero]
  have hrty : rtTy (.slice e) = true := by simp [rtTy, hrte]
  have hnp : GoTy.isPtr (.slice e) = false := by simp [GoTy.isPtr]
  rw [encode_slice_eq] at henc
  by_cases hc : (tag.omitEmpty && l.isEmpty) = true
  · rw [if_pos hc] at henc
    injection henc with h1
    subst h1
    have hl : l = [] := by
      simpa [List.isEmpty_iff] using ((Bool.and_eq_true _ _).mp hc).2
    subst hl
    refine ⟨?_, fun _ => by rw [hz]⟩
    rw [decodeD_nullAV, decodeNullInto_rt _ _ hrty, hz]
  · rw [if_neg hc] at henc
    rcases hr : encodeSetElems nes tag l (sliceMode tag) 0 with e2 | p
    · simp only [hr] at henc
      cases henc
    · obtain ⟨nn, acc⟩ := p
      simp only [hr] at henc
      injection henc with h1
      by_cases hl : l = []
      · subst hl
        simp only [encodeSetElems] at hr
        injection hr with h2
        have hnn : nn = 0 := (congrArg Prod.fst h2).symm
        rw [if_pos hnn] at h1
        subst h1
        refine ⟨?_, fun _ => by rw [hz]⟩
        rw [decodeD_nullAV, decodeNullInto_rt _ _ hrty, hz]
      · have hlen0 : l.length ≠ 0 := fun h0 => hl (List.length_eq_zero.mp h0)
        by_cases hbs : tag.asBinSet = true
        · have hsm : sliceMode tag = .bs [] := by simp [sliceMode, hbs]
          rw [hsm] at hr
          obtain ⟨bs2, hout, hn, hlen, hloop⟩ :=
            encodeSetElems_bs_rt nes tag e hrte hoee l [] 0 nn acc htl hr
          simp only [List.nil_append] at hout
          subst hout
          have hnn : nn ≠ 0 := by omega
          rw [if_neg hnn] at h1
          subst h1
          have hbne : bs2 ≠ [] := fun h0 => by
            rw [h0] at hlen
            exact hlen0 (by simpa using hlen.symm)
          refine ⟨?_, ?_⟩
          · have htoav : (SetAcc.bs bs2).toAV = AV.ofBS bs2 := rfl
            rw [htoav, decodeD_ofBS _ _ _ _ hnp hbne]
            have hfun : (fun (b : List Nat) (c : GoVal) =>
                withIndirect (fun t c2 => decodeBinary b t c2) e c)
                = fun b c => decodeBinary b e c := by
              funext b c
              exact withIndirect_nonptr _ _ _ (rtTy_not_ptr e hrte)
            have hbase : sliceBase e (sliceElems (zero (.slice e))) bs2.length
                = List.replicate bs2.length (zero e) := by
              rw [hz]
              simp [sliceElems, sliceBase_nil]
            have hrb : rebuildSlice (.slice e) l = .slice l := rfl
            simp only [decodeBinarySet, elemTyOfSliceKind, hbase, hfun, hloop, hrb]
          · intro hnull
            rw [(SetAcc_toAV_scalar_fields _).2.2.2.2] at hnull
            simp at hnull
        · by_cases hns : tag.asNumSet = true
          · have hsm : sliceMode tag = .ns [] := by simp [sliceMode, hbs, hns]
            rw [hsm] at hr
            obtain ⟨ns2, hout, hn, hlen, hloop⟩ :=
              encodeSetElems_ns_rt nes tag e hrte hoee l [] 0 nn acc htl hr
            simp only [List.nil_append] at hout
            subst hout
            have hnn : nn ≠ 0 := by omega
            rw [if_neg hnn] at h1
            subst h1
            have hbne : ns2 ≠ [] := fun h0 => by
              rw [h0] at hlen
              exact hlen0 (by simpa using hlen.symm)
            refine ⟨?_, ?_⟩
            · have htoav : (SetAcc.ns ns2).toAV = AV.ofNS ns2 := rfl
              rw [htoav, decodeD_ofNS _ _ _ _ hnp hbne]
              have hfun : (fun (n : String) (c : GoVal) =>
                  withIndirect (fun t c2 => decodeNumber n t c2) e c)
                  = fun n c => decodeNumber n e c := by
                funext n c
                exact withIndirect_nonptr _ _ _ (rtTy_not_ptr e hrte)
              have hbase : sliceBase e (sliceElems (zero (.slice e))) ns2.length
                  = List.replicate ns2.length (zero e) := by
                rw [hz]
                simp [sliceElems, sliceBase_nil]
              have hrb : rebuildSlice (.slice e) l = .slice l := rfl
              simp only [decodeNumberSet, elemTyOfSliceKind, hbase, hfun, hloop, hrb]
            · intro hnull
              rw [(SetAcc_toAV_scalar_fields _).2.2.2.2] at hnull
              simp at hnull
          · by_cases hss : tag.asStrSet = true
            · have hsm : sliceMode tag = .ss [] := by simp [sliceMode, hbs, hns, hss]
              rw [hsm] at hr
              obtain ⟨ss2, hout, hn, hlen, hloop⟩ :=
                encodeSetElems_ss_rt nes tag e hrte hoee l [] 0 nn acc htl hr
              simp only [List.nil_append] at hout
              subst hout
              have hnn : nn ≠ 0 := by omega
              rw [if_neg hnn] at h1
              subst h1
              have hbne : ss2 ≠ [] := fun h0 => by
                rw [h0] at hlen
                exact hlen0 (by simpa using hlen.symm)
              refine ⟨?_, ?_⟩
              · have htoav : (SetAcc.ss ss2).toAV = AV.ofSS ss2 := rfl
                rw [htoav, decodeD_ofSS _ _ _ _ hnp hbne]
                have hfun : (fun (s : String) (c : GoVal) =>
                    withIndirect (fun t c2 => decodeString s t Tag.none c2) e c)
                    = fun s c => decodeString s e Tag.none c := by
                  funext s c
                  exact withIndirect_nonptr _ _ _ (rtTy_not_ptr e hrte)
                have hbase : sliceBase e (sliceElems (zero (.slice e))) ss2.length
                    = List.replicate ss2.length (zero e) := by
                  rw [hz]
                  simp [sliceElems, sliceBase_nil]
                have hrb : rebuildSlice (.slice e) l = .slice l := rfl
                simp only [decodeStringSet, elemTyOfSliceKind, hbase, hfun, hloop, hrb]
              · intro hnull
                rw [(SetAcc_toAV_scalar_fields _).2.2.2.2] at hnull
                simp at hnull
            · have hsm : sliceMode tag = .lst [] := by simp [sliceMode, hbs, hns, hss]
              rw [hsm] at hr
              obtain ⟨avs, hout, hn, hlen, hloop⟩ :=
                encodeSetElems_lst_rt nes tag e hoee l [] 0 nn acc htl hIH hr
              simp only [List.nil_append] at hout
              subst hout
              have hnn : nn ≠ 0 := by omega
              rw [if_neg hnn] at h1
              subst h1
              have hbne : avs.map some ≠ ([] : List (Option AV)) := fun h0 => by
                rw [List.map_eq_nil_iff] at h0
                rw [h0] at hlen
                exact hlen0 (by simpa using hlen.symm)
              refine ⟨?_, ?_⟩
              · have htoav : (SetAcc.lst (avs.map some)).toAV = AV.ofL (avs.map some) := rfl
                rw [htoav, decodeD_ofL _ _ _ _ hnp hbne]
                have hbase : sliceBase e (sliceElems (zero (.slice e))) (avs.map some).length
                    = List.replicate avs.length (zero e) := by
                  rw [hz]
                  simp [sliceElems, sliceBase_nil]
                have hrb : rebuildSlice (.slice e) l = .slice l := rfl
                simp only [decodeList, elemTyOfSliceKind, hbase, hloop, hrb]
              · intro hnull
                rw [(SetAcc_toAV_scalar_fields _).2.2.2.2] at hnull
                simp at hnull

/-- Round trip at a map type (the per-value round trip is a hypothesis,
discharged by the main induction). -/
theorem rt_map (nes : Bool) (tag : Tag) (e : GoTy) (m : List (String × GoVal)) (av : AV)
    (hoee : tag.omitEmptyElem = false)
    (hte : typedEntries m e = true) (hnd : (m.map Prod.fst).Nodup)
    (hIH : ∀ p ∈ m, ∀ av2, encode nes Tag.none p.2 = .ok av2 →
      decodeD (some av2) e (zero e) Tag.none = .ok p.2)
    (henc : encode nes tag (.map m) = .ok av) :
    decodeD (some av) (.map e) (zero (.map e)) tag = .ok (.map m) ∧
      (av.NULL.isSome = true → GoVal.map m = zero (.map e)) := by
  have hz : zero (.map e) = .map [] := by simp [zero]
  have hnull0 : decodeNullInto (.map e) (zero (.map e)) = zero (.map e) := by
    simp [decodeNullInto]
  rw [encode_map_eq] at henc
  by_cases hc : (tag.omitEmpty && m.isEmpty) = true
  · rw [if_pos hc] at henc
    injection henc with h1
    subst h1
    have hm : m = [] := by
      simpa [List.isEmpty_iff] using ((Bool.and_eq_true _ _).mp hc).2
    subst hm
    refine ⟨?_, fun _ => by rw [hz]⟩
    rw [decodeD_nullAV, hnull0, hz]
  · rw [if_neg hc] at henc
    rcases hr : encodeMapEntries nes tag m with e2 | kept
    · simp only [hr] at henc
      cases henc
    · simp only [hr] at henc
      injection henc with h1
      obtain ⟨hlen, hdec⟩ := encodeMapEntries_rt nes tag e hoee m hte hnd hIH kept hr
      by_cases hm : m = []
      · subst hm
        have hk : kept = [] := List.length_eq_zero.mp (by simpa using hlen)
        subst hk
        have h1b : nullAV = av := by simpa using h1
        subst h1b
        refine ⟨?_, fun _ => by rw [hz]⟩
        rw [decodeD_nullAV, hnull0, hz]
      · have hkne : kept ≠ [] := fun h0 => by
          rw [h0] at hlen
          exact hm (List.length_eq_zero.mp (by simpa using hlen.symm))
        have hkemp : kept.isEmpty = false := by simpa [List.isEmpty_iff] using hkne
        rw [hkemp] at h1
        simp only [Bool.false_eq_true, if_false] at h1
        subst h1
        refine ⟨?_, ?_⟩
        · rw [decodeD_ofM _ _ _ _ (by simp [GoTy.isPtr]) hkne]
          have hme : mapEntriesOf (zero (.map e)) = [] := by
            rw [hz]
            simp [mapEntriesOf]
          have hd := hdec [] (by simp)
          simp only [decodeMap, hme, hd, List.nil_append]
        · intro hnull
          simp [AV.ofM, AV.NULL] at hnull

/-- Round trip at a struct type (the per-field round-trip and
null-implies-zero facts are hypotheses, discharged by the main
induction): the kept entries restore the kept fields, and the omitted
fields are exactly the zero-valued ones, which decoding leaves at their
zero values. -/
theorem rt_struct (nes : Bool) (tag : Tag) (flds : List (String × Tag × GoTy))
    (fvl : List (String × Tag × GoVal)) (av : AV)
    (hrf : rtFields flds = true) (hnd : (flds.map Prod.fst).Nodup)
    (htf : typedFields fvl flds = true)
    (hIH : ∀ q ∈ fvl.zip flds, ∀ av2,
      encode nes q.2.2.1 q.1.2.2 = .ok av2 →
      decodeD (some av2) q.2.2.2 (zero q.2.2.2) q.2.2.1 = .ok q.1.2.2 ∧
        (av2.NULL.isSome = true → q.1.2.2 = zero q.2.2.2))
    (henc : encode nes tag (.struct fvl) = .ok av) :
    decodeD (some av) (.struct flds) (zero (.struct flds)) tag = .ok (.struct fvl) ∧
      (av.NULL.isSome = true → GoVal.struct fvl = zero (.struct flds)) := by
  have hzs : zero (.struct flds) = .struct (zeroFields flds) := by simp [zero]
  have hnull0 : decodeNullInto (.struct flds) (zero (.struct flds)) = zero (.struct flds) := by
    simp [decodeNullInto]
  rw [encode_struct_eq] at henc
  rcases hr : encodeStructFields nes fvl with e2 | entries
  · simp only [hr] at henc
    cases henc
  · simp only [hr] at henc
    injection henc with h1
    have hsf := encodeStructFields_rt nes fvl flds htf hrf hnd hIH entries hr
    by_cases he : entries = []
    · subst he
      have h1b : nullAV = av := by simpa using h1
      subst h1b
      have hzd : decodeStructEntriesD [] flds (flds.map fun f => zero f.2.2)
          = .ok (flds.map fun f => zero f.2.2) := by
        simp [decodeStructEntriesD]
      rw [hzd] at hsf
      injection hsf with h2
      have hfz : fvl = zeroFields flds := typedFields_zero fvl flds htf h2.symm
      refine ⟨?_, fun _ => by rw [hfz, hzs]⟩
      rw [decodeD_nullAV, hnull0, hzs, hfz]
    · have hemp : entries.isEmpty = false := by simpa [List.isEmpty_iff] using he
      rw [hemp] at h1
      simp only [Bool.false_eq_true, if_false] at h1
      subst h1
      refine ⟨?_, ?_⟩
      · rw [decodeD_ofM _ _ _ _ (by simp [GoTy.isPtr]) he]
        have hsv : structVals flds (zero (.struct flds)) = flds.map (fun f => zero f.2.2) :=
          structVals_zero flds
        simp only [decodeMap, hsv, hsf]
        rw [typedFields_zip fvl flds htf]
      · intro hnull
        simp [AV.ofM, AV.NULL] at hnull

/-- The round trip, by strong induction on the size of the value: a
value of the round-trip universe that encodes successfully is restored
by decoding into the zero value of its type, and an encoding that came
out null can only have come from the zero value. -/
theorem rt_aux (nes : Bool) :
    ∀ (N : Nat) (v : GoVal) (ty : GoTy) (tag : Tag) (av : AV),
      sizeOf v < N → rtTy ty = true → typed v ty = true → rtTag tag ty = true →
      encode nes tag v = .ok av →
      decodeD (some av) ty (zero ty) tag = .ok v ∧
        (av.NULL.isSome = true → v = zero ty) := by
  intro N
  induction N with
  | zero =>
    intro v ty tag av hN
    omega
  | succ N ih =>
    intro v ty tag av hN hrty htv hrtag henc
    have hoee : tag.omitEmptyElem = false := by
      have := (Bool.and_eq_true _ _).mp hrtag
      simpa using this.1
    cases ty with
    | int w2 =>
      obtain ⟨z, rfl, hlo, hhi⟩ := typed_int_inv v w2 htv
      refine ⟨rt_int nes tag w2 w2 z av htv henc, ?_⟩
      intro hnull
      rw [encode_int] at henc
      injection henc with h1
      by_cases hc : (tag.omitEmpty && z == 0) = true
      · have hz : z = 0 := by simpa using ((Bool.and_eq_true _ _).mp hc).2
        subst hz
        simp [zero]
      · rw [if_neg hc] at h1
        subst h1
        by_cases ha : tag.asString = true <;>
          simp [ha, AV.ofS, AV.ofN, AV.NULL] at hnull
    | uint w2 =>
      obtain ⟨n, rfl, hn⟩ := typed_uint_inv v w2 htv
      refine ⟨rt_uint nes tag w2 w2 n av htv henc, ?_⟩
      intro hnull
      rw [encode_uint] at henc
      injection henc with h1
      by_cases hc : (tag.omitEmpty && n == 0) = true
      · have hz : n = 0 := by simpa using ((Bool.and_eq_true _ _).mp hc).2
        subst hz
        simp [zero]
      · rw [if_neg hc] at h1
        subst h1
        by_cases ha : tag.asString = true <;>
          simp [ha, AV.ofS, AV.ofN, AV.NULL] at hnull
    | bool =>
      obtain ⟨b, rfl⟩ := typed_bool_inv v htv
      refine ⟨rt_bool nes tag b av henc, ?_⟩
      intro hnull
      rw [encode_bool_eq] at henc
      injection henc with h1
      by_cases hc : (tag.omitEmpty && !b) = true
      · have hb : b = false := by simpa using ((Bool.and_eq_true _ _).mp hc).2
        subst hb
        simp [zero]
      · rw [if_neg hc] at h1
        subst h1
        simp [AV.ofBOOL, AV.NULL] at hnull
    | str =>
      obtain ⟨s, rfl⟩ := typed_str_inv v htv
      refine ⟨rt_str nes tag s av hrtag henc, ?_⟩
      intro hnull
      rw [encode_str] at henc
      injection henc with h1
      by_cases hc : (tag.omitEmpty && s.isEmpty) = true
      · have hs : s = "" := (String.isEmpty_iff s).mp ((Bool.and_eq_true _ _).mp hc).2
        subst hs
        simp [zero]
      · rw [if_neg hc] at h1
        by_cases hc2 : (s.isEmpty && nes) = true
        · have hs : s = "" := (String.isEmpty_iff s).mp ((Bool.and_eq_true _ _).mp hc2).1
          subst hs
          simp [zero]
        · rw [if_neg hc2] at h1
          subst h1
          simp [AV.ofS, AV.NULL] at hnull
    | bytes =>
      obtain ⟨b, rfl⟩ := typed_bytes_inv v htv
      refine ⟨rt_bytes nes tag b av henc, ?_⟩
      intro hnull
      rw [encode_bytes] at henc
      injection henc with h1
      by_cases hc : (tag.omitEmpty && b.isEmpty) = true
      · have hb : b = [] := by
          simpa [List.isEmpty_iff] using ((Bool.and_eq_true _ _).mp hc).2
        subst hb
        simp [zero]
      · rw [if_neg hc] at h1
        by_cases hc2 : b.isEmpty = true
        · have hb : b = [] := by simpa [List.isEmpty_iff] using hc2
          subst hb
          simp [zero]
        · rw [if_neg hc2] at h1
          subst h1
          simp [AV.ofB, AV.NULL] at hnull
    | bytesSlices =>
      obtain ⟨l, rfl⟩ := typed_bytesSlices_inv v htv
      exact rt_bytesSlices nes tag l av hoee henc
    | slice e =>
      obtain ⟨l, rfl, htl⟩ := typed_slice_inv v e htv
      have hrte : rtTy e = true := by simpa [rtTy] using hrty
      have hIH : ∀ v2 ∈ l, ∀ av2, encode nes { omitEmpty := false } v2 = .ok av2 →
          decodeD (some av2) e (zero e) Tag.none = .ok v2 := by
        intro v2 hv2 av2 henc2
        have hsz : sizeOf v2 < N := by
          have := sizeOf_mem_slice l v2 hv2
          omega
        exact (ih v2 e Tag.none av2 hsz hrte (typedList_mem e l htl v2 hv2)
          (rtTag_none e) henc2).1
      exact rt_slice nes tag e l av hrte hoee htl hIH henc
    | map e =>
      obtain ⟨m, rfl, hte, hndm⟩ := typed_map_inv v e htv
      have hrte : rtTy e = true := by simpa [rtTy] using hrty
      have hIH : ∀ p ∈ m, ∀ av2, encode nes Tag.none p.2 = .ok av2 →
          decodeD (some av2) e (zero e) Tag.none = .ok p.2 := by
        intro p hp av2 henc2
        have hsz : sizeOf p.2 < N := by
          have := sizeOf_mem_map m p hp
          omega
        exact (ih p.2 e Tag.none av2 hsz hrte (typedEntries_mem e m hte p hp)
          (rtTag_none e) henc2).1
      exact rt_map nes tag e m av hoee hte hndm hIH henc
    | struct flds =>
      obtain ⟨fvl, rfl, htf⟩ := typed_struct_inv v flds htv
      have h2 : rtFields flds = true ∧ (flds.map Prod.fst).Nodup := by
        simpa [rtTy, Bool.and_eq_true] using hrty
      have hIH : ∀ q ∈ fvl.zip flds, ∀ av2,
          encode nes q.2.2.1 q.1.2.2 = .ok av2 →
          decodeD (some av2) q.2.2.2 (zero q.2.2.2) q.2.2.1 = .ok q.1.2.2 ∧
            (av2.NULL.isSome = true → q.1.2.2 = zero q.2.2.2) := by
        intro q hq av2 henc2
        obtain ⟨q1, q2⟩ := q
        have hm := List.of_mem_zip hq
        have hsz : sizeOf q1.2.2 < N := by
          have := sizeOf_mem_struct fvl q1 hm.1
          omega
        have hprop := typedFields_zipMem fvl flds htf (q1, q2) hq
        have hf := rtFields_mem flds h2.1 q2 hm.2
        exact ih q1.2.2 q2.2.2 q2.2.1 av2 hsz hf.2.2 hprop.2.2 hf.2.1 henc2
      exact rt_struct nes tag flds fvl av h2.1 h2.2 htf hIH henc
    | array n e => simp [rtTy] at hrty
    | ptr e => simp [rtTy] at hrty
    | iface => simp [rtTy] at hrty
    | chanK => simp [rtTy] at hrty
    | funcK => simp [rtTy] at hrty
    | unsafeK => simp [rtTy] at hrty
    | complexK => simp [rtTy] at hrty

/-- C1 — round trip: for every native value `v` of a supported shape
(scalars, nested records, sets, lists, maps — the claim's list of
shapes; fixed-size arrays are its documented lossy exception and are not
in the list), typed at a round-trip type and encoded with admissible
field options, decoding `Encode v`'s result back into a zero target of
`v`'s type yields `v` again.  The documented empty-string→null case
(`NullEmptyString` enabled, covered by `nes = true`) is not even lossy
here: the wire null decodes back to the zero value of the field type,
which is the empty string. -/
theorem c1_round_trip (nes : Bool) (v : GoVal) (ty : GoTy) (av : AV)
    (hty : rtTy ty = true) (htv : typed v ty = true)
    (henc : Encode nes v = .ok av) :
    Decode av ty (zero ty) = .ok v :=
  (rt_aux nes (sizeOf v + 1) v ty Tag.none av (by omega) hty htv (rtTag_none ty) henc).1

/-- Witness for C1: a record with an omitted empty string field, an
integer field and a list-of-strings field round-trips through its wire
map. -/
theorem c1_round_trip_witness :
    Decode (AV.ofM [("A", some (AV.ofN "7")), ("C", some (AV.ofL [some (AV.ofS "x")]))])
      (.struct [("A", Tag.none, .int .i), ("B", { omitEmpty := true }, .str),
        ("C", Tag.none, .slice .str)])
      (zero (.struct [("A", Tag.none, .int .i), ("B", { omitEmpty := true }, .str),
        ("C", Tag.none, .slice .str)]))
      = .ok (.struct [("A", Tag.none, .int .i 7), ("B", { omitEmpty := true }, .str ""),
        ("C", Tag.none, .slice [.str "x"])]) := by
  have h7 : formatInt 7 = "7" := by decide
  have he : "".isEmpty = true := by decide
  refine c1_round_trip false
    (.struct [("A", Tag.none, .int .i 7), ("B", { omitEmpty := true }, .str ""),
      ("C", Tag.none, .slice [.str "x"])])
    (.struct [("A", Tag.none, .int .i), ("B", { omitEmpty := true }, .str),
      ("C", Tag.none, .slice .str)])
    (AV.ofM [("A", some (AV.ofN "7")), ("C", some (AV.ofL [some (AV.ofS "x")]))])
    ?_ ?_ ?_
  · simp [rtTy, rtFields, rtTag, Tag.none, isNumericTy]
  · simp [typed, typedFields, typedList, Tag.none]
    decide
  · simp [Encode, encode_struct_eq, encodeStructFields, encode_int, encode_str,
      encode_slice_eq, encodeSetElems, keepOrOmitEmpty, elemFnStep, sliceMode,
      Tag.none, h7, he, AV.ofN, AV.ofM, AV.ofS, AV.ofL, AV.NULL, AV.S, nullAV, SetAcc.toAV]

end DynAttr
